import Mathlib

/-!
Verification development for the request planner in `api/query_engine.go`
(metrictank query layer).

The planner itself (`planRequests` and its helpers) is translated from the
Go source file `src/api/query_engine.go`.  The supporting packages
(`conf.Retention`, `models.Req`, `util.Lcm`, `util.AllCombinationsUint32`,
the `ReqsPlan` partitioned view and the schema catalogue) are not part of
the provided sources, so they are modelled from the specification's data
model (spec sections 3, 4.A, 4.C and the glossary).

Conventions:
* Go `uint32` values are modelled as `Nat`; wrap-around arithmetic is made
  explicit (`sub32`, `mul32`) exactly where the Go code subtracts or
  multiplies `uint32` values that may overflow.
* maps keyed by schema id are modelled as position-indexed lists
  (`List (List Req)`), matching the slice-indexed `ReqsByRet`;
  the PN-group map is an association list.
* a Go function that can `panic` is modelled with an `Option`/error result
  whose failure constructor stands for the panic.
* the metrics emission of phase 4 is a pure side effect and is not modelled.
-/

namespace QueryEngine

/-- `2^32`, the modulus of Go `uint32` arithmetic. -/
def pow32 : Nat := 4294967296

/-- Wrapping `uint32` subtraction `a - b` for operands below `2^32`. -/
def sub32 (a b : Nat) : Nat := (a + pow32 - b) % pow32

/-- Wrapping `uint32` multiplication. -/
def mul32 (a b : Nat) : Nat := (a * b) % pow32

/-- Ceiling division, 0 when the divisor is 0. -/
def ceilDiv (a b : Nat) : Nat := if b = 0 then 0 else (a + b - 1) / b

/-- Modelled from the spec: `conf.Retention` (spec section 3), an archive
descriptor with `seconds_per_point`, `number_of_points` and
`ready_timestamp`.  (`conf` is not part of the provided sources.) -/
structure Retention where
  secondsPerPoint : Nat
  numberOfPoints : Nat
  ready : Nat
deriving DecidableEq

/-- Modelled from the spec: `max_retention` is derived from the archive's
interval and point count (oldest time covered). -/
def Retention.maxRetention (r : Retention) : Nat :=
  r.secondsPerPoint * r.numberOfPoints

/-- Modelled from the spec: `valid(from, ttl)` holds when
`ready_timestamp ≤ from` and `max_retention ≥ ttl`. -/
def Retention.Valid (r : Retention) (fromT ttl : Nat) : Prop :=
  r.ready ≤ fromT ∧ ttl ≤ r.maxRetention

instance (r : Retention) (fromT ttl : Nat) : Decidable (r.Valid fromT ttl) :=
  inferInstanceAs (Decidable (_ ∧ _))

/-- Modelled from the spec: `models.Req` (spec section 3), the fetch intent
for one series with the mutable fields set by planning.  `rawInterval` is
the series' pre-existing native interval for raw archives.  (`models` is
not part of the provided sources.) -/
structure Req where
  reqFrom : Nat
  reqTo : Nat
  rawInterval : Nat
  archive : Nat
  archInterval : Nat
  outInterval : Nat
deriving DecidableEq

/-- Modelled from the spec: planning a request against archive `i` sets
`archive`, derives `arch_interval` (the series' native interval for the
raw archive, the retention's interval otherwise) and initialises
`out_interval := arch_interval` (spec sections 3 and 4.D). -/
def Req.plan (r : Req) (i : Nat) (ret : Retention) : Req :=
  let ai := if i = 0 then r.rawInterval else ret.secondsPerPoint
  { r with archive := i, archInterval := ai, outInterval := ai }

/-- Modelled from the spec: recording a normalisation target sets
`out_interval` to the requested interval (spec section 4.E). -/
def Req.planNormalization (r : Req) (interval : Nat) : Req :=
  { r with outInterval := interval }

/-- Modelled from the spec: `points_fetch = ⌈(to − from) / arch_interval⌉`
(spec section 3). -/
def Req.pointsFetch (r : Req) : Nat :=
  ceilDiv (sub32 r.reqTo r.reqFrom) r.archInterval

/-- Modelled from the spec: re-planning a request to the common output
interval keeps the archive chosen and records `out_interval := interval`
when it differs from `arch_interval` (spec section 4.E,
`plan_highest_res_multi`). -/
def Req.adjustTo (r : Req) (interval : Nat) : Req :=
  if interval ≠ r.archInterval then r.planNormalization interval else r

/-- Modelled from the spec: the retention catalogue, a read-only lookup
from schema id to the schema's ordered retention list (spec section 4.A). -/
abbrev Catalogue : Type := Nat → List Retention

/-- Modelled from the spec: `ReqsByRet`, a mapping from `schema_id` to an
ordered list of requests, realised positionally. -/
abbrev ReqsByRet : Type := List (List Req)

/-- Modelled from the spec: a schema bucket mapping holds data when some
bucket is non-empty (`HasData`). -/
def ReqsByRet.hasData (rbr : ReqsByRet) : Bool :=
  rbr.any (fun b => !b.isEmpty)

/-- Modelled from the spec: `out_interval()` on a PN-group half returns the
`out_interval` of any one of its requests (the first, here); 0 if empty. -/
def ReqsByRet.outIntervalOf (rbr : ReqsByRet) : Nat :=
  match rbr.flatten with
  | [] => 0
  | r :: _ => r.outInterval

/-- Total points fetched over a schema bucket mapping. -/
def ReqsByRet.points (rbr : ReqsByRet) : Nat :=
  (rbr.map (fun reqs => (reqs.map Req.pointsFetch).sum)).sum

/-- Modelled from the spec: the `{mdp_yes, mdp_no}` pair of bucket maps. -/
structure SplitReq where
  mdpyes : ReqsByRet
  mdpno : ReqsByRet
deriving DecidableEq

/-- Total request count of a split, used to order PN-groups (`Len`). -/
def SplitReq.lenTotal (s : SplitReq) : Nat :=
  (s.mdpyes.map List.length).sum + (s.mdpno.map List.length).sum

/-- Total points fetched over a split. -/
def SplitReq.points (s : SplitReq) : Nat :=
  s.mdpyes.points + s.mdpno.points

/-- Modelled from the spec: the partitioned view `ReqsPlan`
(spec section 3): PN-groups and the singles pair. -/
structure ReqsPlan where
  pngroups : List (Nat × SplitReq)
  single : SplitReq
deriving DecidableEq

/-- `PointsFetch()` on the plan: sum over all requests. -/
def ReqsPlan.pointsFetch (rp : ReqsPlan) : Nat :=
  (rp.pngroups.map (fun p => p.2.points)).sum + rp.single.points

/-- Modelled from the spec: `util.Lcm`, the least common multiple of a
list of intervals (`util` is not part of the provided sources; the Go
version is only called on non-empty lists). -/
def lcmList (l : List Nat) : Nat := l.foldr Nat.lcm 1

/-- Modelled from the spec: `util.AllCombinationsUint32`, the Cartesian
product across the per-schema interval lists, one tuple per combination,
in declared schema order. -/
def allCombinationsUint32 : List (List Nat) → List (List Nat)
  | [] => [[]]
  | part :: rest =>
    (part.map (fun p => (allCombinationsUint32 rest).map (fun c => p :: c))).flatten

/-- `findHighestResRet` (query_engine.go:524): scan ascending, skip
retentions not ready for `from`, return the first with sufficient TTL,
falling back to the last ready one.  Recursive worker carrying the index. -/
def findHighRec (fromT ttl : Nat) : List Retention → Nat → Option (Nat × Retention)
  | [], _ => none
  | ret :: rest, idx =>
    if fromT < ret.ready then findHighRec fromT ttl rest (idx + 1)
    else if ttl ≤ ret.maxRetention then some (idx, ret)
    else
      match findHighRec fromT ttl rest (idx + 1) with
      | some pr => some pr
      | none => some (idx, ret)

/-- `findHighestResRet` (query_engine.go:524). -/
def findHighestResRet (rets : List Retention) (fromT ttl : Nat) :
    Option (Nat × Retention) :=
  findHighRec fromT ttl rets 0

/-- The satisfaction predicate of `findLowestValidResForInterval`
(query_engine.go:552): valid and with an interval dividing the target. -/
def LowSat (fromT ttl interval : Nat) (ret : Retention) : Prop :=
  ret.Valid fromT ttl ∧ interval % ret.secondsPerPoint = 0

instance (fromT ttl interval : Nat) (ret : Retention) :
    Decidable (LowSat fromT ttl interval ret) :=
  inferInstanceAs (Decidable (_ ∧ _))

/-- `findLowestValidResForInterval` (query_engine.go:549): descending scan,
first valid retention whose interval divides the target; realised as an
ascending recursion preferring the later (coarser) match. -/
def findLowRec (fromT ttl interval : Nat) : List Retention → Nat → Option (Nat × Retention)
  | [], _ => none
  | ret :: rest, idx =>
    match findLowRec fromT ttl interval rest (idx + 1) with
    | some pr => some pr
    | none =>
      if LowSat fromT ttl interval ret then some (idx, ret)
      else none

/-- `findLowestValidResForInterval` (query_engine.go:549). -/
def findLowestValidResForInterval (rets : List Retention) (fromT ttl interval : Nat) :
    Option (Nat × Retention) :=
  findLowRec fromT ttl interval rets 0

/-- The descending candidate scan of `planLowestResForMDPSingles`
(query_engine.go:228-238): index counts down, skipping non-ready archives,
breaking at the first tentative plan fetching at least `mdp/2` points and
otherwise keeping the last (finest) ready candidate. -/
def mdpGo (rets : List Retention) (fromT mdp : Nat) (r0 : Req) :
    Nat → Option (Nat × Retention) → Option (Nat × Retention)
  | 0, acc => acc
  | i + 1, acc =>
    match rets.get? i with
    | none => mdpGo rets fromT mdp r0 i acc
    | some ret =>
      if fromT < ret.ready then mdpGo rets fromT mdp r0 i acc
      else if mdp / 2 ≤ (r0.plan i ret).pointsFetch then some (i, ret)
      else mdpGo rets fromT mdp r0 i (some (i, ret))

/-- `planHighestResSingles` (query_engine.go:206). -/
def planHighestResSingles (cat : Catalogue) (now fromT _to sid : Nat)
    (reqs : List Req) : Option (List Req) :=
  match findHighestResRet (cat sid) fromT (sub32 now fromT) with
  | none => none
  | some pr => some (reqs.map (fun r => r.plan pr.1 pr.2))

/-- `planLowestResForMDPSingles` (query_engine.go:220). -/
def planLowestResForMDPSingles (cat : Catalogue) (_now fromT _to mdp sid : Nat)
    (reqs : List Req) : Option (List Req) :=
  match reqs with
  | [] => some []
  | r0 :: _ =>
    match mdpGo (cat sid) fromT mdp r0 (cat sid).length none with
    | none => none
    | some pr => some (reqs.map (fun r => r.plan pr.1 pr.2))

/-- `getValidIntervals` (query_engine.go:421): the list of valid intervals
for one schema, `none` when empty. -/
def getValidIntervals (cat : Catalogue) (sid fromT ttl : Nat) : Option (List Nat) :=
  let l := (cat sid).filterMap
    (fun ret => if ret.Valid fromT ttl then some ret.secondsPerPoint else none)
  if l.isEmpty then none else some l

/-- Worker for `getValidIntervalsSet` (query_engine.go:394): walk the
buckets positionally, skip empty ones, fail on a schema without valid
intervals, and de-duplicate identical lists preserving order. -/
def gvisRec (cat : Catalogue) (fromT ttl : Nat) :
    List (List Req) → Nat → List (List Nat) → Option (List (List Nat))
  | [], _, acc => some acc
  | reqs :: rest, sid, acc =>
    if reqs.isEmpty then gvisRec cat fromT ttl rest (sid + 1) acc
    else
      match getValidIntervals cat sid fromT ttl with
      | none => none
      | some vi =>
        gvisRec cat fromT ttl rest (sid + 1) (if vi ∈ acc then acc else acc ++ [vi])

/-- `getValidIntervalsSet` (query_engine.go:394). -/
def getValidIntervalsSet (cat : Catalogue) (rbr : ReqsByRet) (fromT ttl : Nat) :
    Option (List (List Nat)) :=
  gvisRec cat fromT ttl rbr 0 []

/-- The per-candidate score of `getLowestResFromSetMatching`
(query_engine.go:455-466): sum over non-empty buckets of
`|reqs| * chosen.secondsPerPoint`; `none` models the panic when no valid
retention supports the candidate interval. -/
def scoreRec (cat : Catalogue) (fromT ttl cand : Nat) :
    List (List Req) → Nat → Nat → Option Nat
  | [], _, acc => some acc
  | reqs :: rest, sid, acc =>
    if reqs.isEmpty then scoreRec cat fromT ttl cand rest (sid + 1) acc
    else
      match findLowestValidResForInterval (cat sid) fromT ttl cand with
      | none => none
      | some pr =>
        scoreRec cat fromT ttl cand rest (sid + 1)
          (acc + reqs.length * pr.2.secondsPerPoint)

/-- The score of one candidate interval over a bucket mapping. -/
def scoreFor (cat : Catalogue) (rbr : ReqsByRet) (fromT ttl cand : Nat) : Option Nat :=
  scoreRec cat fromT ttl cand rbr 0 0

/-- The combination loop of `getLowestResFromSetMatching`
(query_engine.go:447-471), carrying `maxScore`, `returnInterval` and
`lowestInterval`. -/
def lowResLoop (cat : Catalogue) (rbr : ReqsByRet) (fromT ttl minI maxI : Nat) :
    List (List Nat) → Nat → Nat → Nat → Option Nat
  | [], _, ri, li => some (if ri = 0 then li else ri)
  | combo :: rest, ms, ri, li =>
    let c := lcmList combo
    let li' := if c < li then c else li
    if c < minI ∨ maxI < c then lowResLoop cat rbr fromT ttl minI maxI rest ms ri li'
    else
      match scoreFor cat rbr fromT ttl c with
      | none => none
      | some s =>
        if ms < s then lowResLoop cat rbr fromT ttl minI maxI rest s c li'
        else lowResLoop cat rbr fromT ttl minI maxI rest ms ri li'

/-- `getLowestResFromSetMatching` (query_engine.go:440); `none` models the
panic. -/
def getLowestResFromSetMatching (cat : Catalogue) (rbr : ReqsByRet)
    (fromT ttl minI maxI : Nat) (intervalsSet : List (List Nat)) : Option Nat :=
  lowResLoop cat rbr fromT ttl minI maxI (allCombinationsUint32 intervalsSet) 0 0 (pow32 - 1)

/-- The combination loop of `getHighestResFromSetMatching`
(query_engine.go:486-494). -/
def ghrRec (minI maxI : Nat) : List (List Nat) → Nat → Nat
  | [], best => best
  | combo :: rest, best =>
    let c := lcmList combo
    if c < minI ∨ maxI < c then ghrRec minI maxI rest best
    else if best = 0 ∨ c < best then ghrRec minI maxI rest c
    else ghrRec minI maxI rest best

/-- `getHighestResFromSetMatching` (query_engine.go:482): the lowest LCM in
range, 0 when none. -/
def getHighestResFromSetMatching (_fromT _ttl minI maxI : Nat)
    (intervalsSet : List (List Nat)) : Nat :=
  ghrRec minI maxI (allCombinationsUint32 intervalsSet) 0

/-- Worker for `planToMulti` (query_engine.go:500): plan every non-empty
bucket to the given interval, normalising when the archive's interval
differs; `none` models the panic when no valid retention supports it. -/
def planToMultiRec (cat : Catalogue) (fromT ttl interval : Nat) :
    List (List Req) → Nat → Option (List (List Req))
  | [], _ => some []
  | reqs :: rest, sid =>
    if reqs.isEmpty then
      match planToMultiRec cat fromT ttl interval rest (sid + 1) with
      | none => none
      | some out => some (reqs :: out)
    else
      match findLowestValidResForInterval (cat sid) fromT ttl interval with
      | none => none
      | some pr =>
        match planToMultiRec cat fromT ttl interval rest (sid + 1) with
        | none => none
        | some out =>
          some ((reqs.map (fun r =>
            let r' := r.plan pr.1 pr.2
            if interval ≠ r'.archInterval then r'.planNormalization interval else r')) :: out)

/-- `planToMulti` (query_engine.go:500). -/
def planToMulti (cat : Catalogue) (now fromT _to interval : Nat) (rbr : ReqsByRet) :
    Option ReqsByRet :=
  planToMultiRec cat fromT (sub32 now fromT) interval rbr 0

/-- Phase 1 of `planHighestResMulti` (query_engine.go:256-276): plan every
non-empty bucket to its highest valid resolution. -/
def phmRec (cat : Catalogue) (fromT ttl : Nat) :
    List (List Req) → Nat → Option (List (List Req))
  | [], _ => some []
  | reqs :: rest, sid =>
    if reqs.isEmpty then
      match phmRec cat fromT ttl rest (sid + 1) with
      | none => none
      | some out => some (reqs :: out)
    else
      match findHighestResRet (cat sid) fromT ttl with
      | none => none
      | some pr =>
        match phmRec cat fromT ttl rest (sid + 1) with
        | none => none
        | some out => some ((reqs.map (fun r => r.plan pr.1 pr.2)) :: out)

/-- Order-preserving de-duplication of the planned requests' archive
intervals (query_engine.go:269-274). -/
def dedupAux : List Nat → List Nat → List Nat
  | acc, [] => acc
  | acc, x :: xs => dedupAux (if x ∈ acc then acc else acc ++ [x]) xs

/-- The distinct archive intervals seen across all planned requests, in
traversal order. -/
def collectIntervals (rbr : List (List Req)) : List Nat :=
  dedupAux [] (rbr.flatten.map Req.archInterval)

/-- `planHighestResMulti` (query_engine.go:250): plan each bucket to its
highest valid resolution, then adjust every request to the LCM of the
distinct archive intervals seen. -/
def planHighestResMulti (cat : Catalogue) (now fromT _to : Nat) (rbr : ReqsByRet) :
    Option ReqsByRet :=
  match phmRec cat fromT (sub32 now fromT) rbr 0 with
  | none => none
  | some rbr1 =>
    let interval := lcmList (collectIntervals rbr1)
    some (rbr1.map (fun reqs => reqs.map (fun r => r.adjustTo interval)))

/-- Failure modes of the multi MDP planner: `notOk` is the boolean false
return (no valid intervals), `panicked` models the Go panics. -/
inductive MFail where
  | notOk
  | panicked
deriving DecidableEq

/-- `planLowestResForMDPMulti` (query_engine.go:293). -/
def planLowestResForMDPMulti (cat : Catalogue) (now fromT toT mdp : Nat)
    (rbr : ReqsByRet) : Except MFail ReqsByRet :=
  let ttl := sub32 now fromT
  let maxInterval := mul32 2 (sub32 toT fromT) / mdp
  match getValidIntervalsSet cat rbr fromT ttl with
  | none => .error .notOk
  | some set =>
    match getLowestResFromSetMatching cat rbr fromT ttl 0 maxInterval set with
    | none => .error .panicked
    | some interval =>
      match planToMulti cat now fromT toT interval rbr with
      | none => .error .panicked
      | some rbr' => .ok rbr'

/-- The ascending retention scan of `reduceResSingles`
(query_engine.go:341-348): first valid retention coarser than the current
output interval. -/
def redSinglesFind (fromT ttl curOut : Nat) : List Retention → Nat → Option (Nat × Retention)
  | [], _ => none
  | ret :: rest, idx =>
    if ret.Valid fromT ttl ∧ curOut < ret.secondsPerPoint then some (idx, ret)
    else redSinglesFind fromT ttl curOut rest (idx + 1)

/-- `reduceResSingles` (query_engine.go:327): `none` is the boolean false
return; an empty bucket reports success unchanged. -/
def reduceResSingles (cat : Catalogue) (now fromT _to sid : Nat)
    (reqs : List Req) : Option (List Req) :=
  match reqs with
  | [] => some []
  | r0 :: _ =>
    match redSinglesFind fromT (sub32 now fromT) r0.outInterval (cat sid) 0 with
    | none => none
    | some pr => some (reqs.map (fun r => r.plan pr.1 pr.2))

/-- Outcome of `reduceResMulti`: no progress, progress with the new
buckets, or the modelled panic from `planToMulti`. -/
inductive RedResult where
  | noProgress
  | panicked
  | reduced (rbr : ReqsByRet)
deriving DecidableEq

/-- `reduceResMulti` (query_engine.go:368). -/
def reduceResMulti (cat : Catalogue) (now fromT toT : Nat) (rbr : ReqsByRet) :
    RedResult :=
  let curOut := rbr.outIntervalOf
  let ttl := sub32 now fromT
  match getValidIntervalsSet cat rbr fromT ttl with
  | none => .noProgress
  | some set =>
    let interval := getHighestResFromSetMatching fromT ttl (curOut + 1) (pow32 - 1) set
    if interval = 0 then .noProgress
    else
      match planToMulti cat now fromT toT interval rbr with
      | none => .panicked
      | some rbr' => .reduced rbr'

/-- The error results of `planRequests`: the two sentinel errors
(query_engine.go:28-29), the modelled panic, and fuel exhaustion of the
soft-limit loop (which diverges in Go). -/
inductive PlanError where
  | unSatisfiable
  | maxPointsPerReq
  | panicked
  | outOfFuel
deriving DecidableEq

/-- Look up a PN-group by id in the association list. -/
def lookupGroup : List (Nat × SplitReq) → Nat → Option SplitReq
  | [], _ => none
  | (g, s) :: rest, gid => if g = gid then some s else lookupGroup rest gid

/-- Replace the `mdpno` half of the PN-group with the given id. -/
def setGroupNo : List (Nat × SplitReq) → Nat → ReqsByRet → List (Nat × SplitReq)
  | [], _, _ => []
  | (g, s) :: rest, gid, rbr =>
    if g = gid then (g, { s with mdpno := rbr }) :: rest
    else (g, s) :: setGroupNo rest gid rbr

/-- Replace the singles `mdpno` bucket at the given schema position. -/
def ReqsPlan.setSingleNo (rp : ReqsPlan) (sid : Nat) (reqs : List Req) : ReqsPlan :=
  { rp with single := { rp.single with mdpno := rp.single.mdpno.set sid reqs } }

/-- Insertion into a list sorted ascending by the second component. -/
def insertAsc (x : Nat × Nat) : List (Nat × Nat) → List (Nat × Nat)
  | [] => [x]
  | y :: ys => if x.2 < y.2 then x :: y :: ys else y :: insertAsc x ys

/-- The PN-group ids ordered by ascending total request count
(query_engine.go:135-139). -/
def sortGroupIdsByLen (groups : List (Nat × SplitReq)) : List Nat :=
  (((groups.map (fun p => (p.1, p.2.lenTotal))).foldr insertAsc []).map Prod.fst)

/-- The PN-group half of one soft-limit pass (query_engine.go:143-154):
reduce each group's `mdpno` half in the given order, recording progress and
exiting early once the soft limit is met.  Result: (progress, early, state). -/
def softGroupsPass (cat : Catalogue) (now fromT toT : Nat) (soft : Int) :
    List Nat → ReqsPlan → Bool → Except PlanError (Bool × Bool × ReqsPlan)
  | [], rp, progress => .ok (progress, false, rp)
  | gid :: rest, rp, progress =>
    match lookupGroup rp.pngroups gid with
    | none => softGroupsPass cat now fromT toT soft rest rp progress
    | some split =>
      if split.mdpno.hasData then
        match reduceResMulti cat now fromT toT split.mdpno with
        | .panicked => .error .panicked
        | .noProgress => softGroupsPass cat now fromT toT soft rest rp progress
        | .reduced rbr' =>
          let rp' : ReqsPlan := { rp with pngroups := setGroupNo rp.pngroups gid rbr' }
          if (rp'.pointsFetch : Int) ≤ soft then .ok (true, true, rp')
          else softGroupsPass cat now fromT toT soft rest rp' true
      else softGroupsPass cat now fromT toT soft rest rp progress

/-- The singles half of one soft-limit pass (query_engine.go:155-165). -/
def softSinglesPass (cat : Catalogue) (now fromT toT : Nat) (soft : Int) :
    List Nat → ReqsPlan → Bool → Except PlanError (Bool × Bool × ReqsPlan)
  | [], rp, progress => .ok (progress, false, rp)
  | sid :: rest, rp, progress =>
    let reqs := rp.single.mdpno.getD sid []
    if reqs.isEmpty then softSinglesPass cat now fromT toT soft rest rp progress
    else
      match reduceResSingles cat now fromT toT sid reqs with
      | none => softSinglesPass cat now fromT toT soft rest rp progress
      | some reqs' =>
        let rp' := rp.setSingleNo sid reqs'
        if (rp'.pointsFetch : Int) ≤ soft then .ok (true, true, rp')
        else softSinglesPass cat now fromT toT soft rest rp' true

/-- One full soft-limit pass: PN-groups in ascending size order, then the
singles `mdpno` buckets in schema order. -/
def softPassOnce (cat : Catalogue) (now fromT toT : Nat) (soft : Int)
    (order : List Nat) (rp : ReqsPlan) : Except PlanError (Bool × Bool × ReqsPlan) :=
  match softGroupsPass cat now fromT toT soft order rp false with
  | .error e => .error e
  | .ok (progress, true, rp') => .ok (progress, true, rp')
  | .ok (progress, false, rp') =>
    softSinglesPass cat now fromT toT soft (List.range rp'.single.mdpno.length) rp' progress

/-- The soft-limit reduction loop (query_engine.go:141-166), indexed by
fuel; the Go loop has no bound and can diverge, which fuel exhaustion
(`outOfFuel`) makes observable. -/
def softLoop : Nat → Catalogue → Nat → Nat → Nat → Int → List Nat → ReqsPlan →
    Except PlanError ReqsPlan
  | 0, _, _, _, _, _, _, _ => .error .outOfFuel
  | fuel + 1, cat, now, fromT, toT, soft, order, rp =>
    if soft < (rp.pointsFetch : Int) then
      match softPassOnce cat now fromT toT soft order rp with
      | .error e => .error e
      | .ok (progress, early, rp') =>
        if early then .ok rp'
        else if progress then softLoop fuel cat now fromT toT soft order rp'
        else .ok rp'
    else .ok rp

/-- The PN-group portion of phase 1 (query_engine.go:74-88): plan each
group's `mdp_yes` half to the lowest MDP-compatible common resolution and
its `mdp_no` half to the highest common resolution. -/
def planGroupsRec (cat : Catalogue) (now fromT toT mdp : Nat) :
    List (Nat × SplitReq) → Except PlanError (List (Nat × SplitReq))
  | [] => .ok []
  | (gid, split) :: rest =>
    match (if split.mdpyes.hasData then planLowestResForMDPMulti cat now fromT toT mdp split.mdpyes
           else .ok split.mdpyes) with
    | .error .notOk => .error .unSatisfiable
    | .error .panicked => .error .panicked
    | .ok yes' =>
      match (if split.mdpno.hasData then planHighestResMulti cat now fromT toT split.mdpno
             else some split.mdpno) with
      | none => .error .unSatisfiable
      | some no' =>
        match planGroupsRec cat now fromT toT mdp rest with
        | .error e => .error e
        | .ok rest' => .ok ((gid, ⟨yes', no'⟩) :: rest')

/-- The `mdp_yes` singles portion of phase 1 (query_engine.go:89-97). -/
def planYesSinglesRec (cat : Catalogue) (now fromT toT mdp : Nat) :
    List (List Req) → Nat → Except PlanError (List (List Req))
  | [], _ => .ok []
  | reqs :: rest, sid =>
    if reqs.isEmpty then
      match planYesSinglesRec cat now fromT toT mdp rest (sid + 1) with
      | .error e => .error e
      | .ok out => .ok (reqs :: out)
    else
      match planLowestResForMDPSingles cat now fromT toT mdp sid reqs with
      | none => .error .unSatisfiable
      | some reqs' =>
        match planYesSinglesRec cat now fromT toT mdp rest (sid + 1) with
        | .error e => .error e
        | .ok out => .ok (reqs' :: out)

/-- The `mdp_no` singles portion of phase 1 (query_engine.go:98-106). -/
def planNoSinglesRec (cat : Catalogue) (now fromT toT : Nat) :
    List (List Req) → Nat → Except PlanError (List (List Req))
  | [], _ => .ok []
  | reqs :: rest, sid =>
    if reqs.isEmpty then
      match planNoSinglesRec cat now fromT toT rest (sid + 1) with
      | .error e => .error e
      | .ok out => .ok (reqs :: out)
    else
      match planHighestResSingles cat now fromT toT sid reqs with
      | none => .error .unSatisfiable
      | some reqs' =>
        match planNoSinglesRec cat now fromT toT rest (sid + 1) with
        | .error e => .error e
        | .ok out => .ok (reqs' :: out)

/-- Phase 1 of `planRequests` (query_engine.go:73-106): initial planning of
all partitions; any failure is `UNSATISFIABLE`. -/
def planInitial (cat : Catalogue) (now fromT toT mdp : Nat) (rp0 : ReqsPlan) :
    Except PlanError ReqsPlan :=
  match planGroupsRec cat now fromT toT mdp rp0.pngroups with
  | .error e => .error e
  | .ok groups' =>
    match planYesSinglesRec cat now fromT toT mdp rp0.single.mdpyes 0 with
    | .error e => .error e
    | .ok yes' =>
      match planNoSinglesRec cat now fromT toT rp0.single.mdpno 0 with
      | .error e => .error e
      | .ok no' => .ok ⟨groups', ⟨yes', no'⟩⟩

/-- Phases 1-2 of `planRequests`: initial planning followed by the
soft-limit loop when `mpprSoft > 0` (query_engine.go:108-168). -/
def planPhase12 (fuel : Nat) (cat : Catalogue) (now fromT toT mdp : Nat)
    (soft : Int) (rp0 : ReqsPlan) : Except PlanError ReqsPlan :=
  match planInitial cat now fromT toT mdp rp0 with
  | .error e => .error e
  | .ok rp1 =>
    if 0 < soft then softLoop fuel cat now fromT toT soft (sortGroupIdsByLen rp1.pngroups) rp1
    else .ok rp1

/-- `planRequests` (query_engine.go:69): phases 1-2 then the hard-limit
gate (query_engine.go:170-174); metrics emission (phase 4) is pure
side effect and not modelled. -/
def planRequests (fuel : Nat) (cat : Catalogue) (now fromT toT : Nat)
    (rp0 : ReqsPlan) (planMDP : Nat) (soft hard : Int) : Except PlanError ReqsPlan :=
  match planPhase12 fuel cat now fromT toT planMDP soft rp0 with
  | .error e => .error e
  | .ok rp2 =>
    if 0 < hard ∧ hard < (rp2.pointsFetch : Int) then .error .maxPointsPerReq
    else .ok rp2

/-! ### Concrete instances used by the counterexamples and witnesses -/

/-- A catalogue with one short-TTL retention: 10s per point, 10 points
(`max_retention` = 100s), ready since 0. -/
def c1cat : Catalogue := fun _ => [⟨10, 10, 0⟩]

/-- An unplanned request over `[0, 300)` with canonical raw interval. -/
def c1req : Req := ⟨0, 300, 10, 0, 0, 0⟩

/-- A singles MDP-no bundle holding just `c1req`. -/
def c1bundle : ReqsPlan := ⟨[], ⟨[], [[c1req]]⟩⟩

/-- `c1req` as planned by `planHighestResSingles` against archive 0. -/
def c1planned : Req := ⟨0, 300, 10, 0, 10, 10⟩

/-- The plan produced for `c1bundle`. -/
def c1rp : ReqsPlan := ⟨[], ⟨[], [[c1planned]]⟩⟩

/-- A catalogue with retentions 10s and 60s, both with ample TTL. -/
def c2cat : Catalogue := fun _ => [⟨10, 100, 0⟩, ⟨60, 100, 0⟩]

/-- An unplanned request over `[0, 600)`, raw interval 10. -/
def c2req : Req := ⟨0, 600, 10, 0, 0, 0⟩

/-- One PN-group whose `mdp_yes` and `mdp_no` halves each hold one copy of
`c2req` on the same schema. -/
def c2bundle : ReqsPlan := ⟨[(1, ⟨[[c2req]], [[c2req]]⟩)], ⟨[], []⟩⟩

/-- The plan produced for `c2bundle` with MDP 20: the `mdp_yes` request at
60s, the `mdp_no` request at 10s. -/
def c2rp : ReqsPlan :=
  ⟨[(1, ⟨[[⟨0, 600, 10, 1, 60, 60⟩]], [[⟨0, 600, 10, 0, 10, 10⟩]]⟩)], ⟨[], []⟩⟩

/-- A catalogue with a single 10s retention with ample TTL. -/
def c3cat : Catalogue := fun _ => [⟨10, 1000, 0⟩]

/-- A request over `[400, 1000)` whose raw archive has the non-canonical
native interval 7 (the schema declares 10). -/
def c3req : Req := ⟨400, 1000, 7, 0, 0, 0⟩

/-- A PN-group MDP-yes bundle holding just `c3req`. -/
def c3bundle : ReqsPlan := ⟨[(1, ⟨[[c3req]], []⟩)], ⟨[], []⟩⟩

/-- The plan produced for `c3bundle`: archive 0 with native interval 7,
normalised to the 10s target interval. -/
def c3rp : ReqsPlan := ⟨[(1, ⟨[[⟨400, 1000, 7, 0, 7, 10⟩]], []⟩)], ⟨[], []⟩⟩

/-- A catalogue with retentions 10s and 60s, both valid for the window. -/
def c4cat : Catalogue := fun _ => [⟨10, 100, 0⟩, ⟨60, 100, 0⟩]

/-- An unplanned request over `[0, 100)`, raw interval 10. -/
def c4req : Req := ⟨0, 100, 10, 0, 0, 0⟩

/-- `c4req` planned at archive 0 (the finest). -/
def c4planned : Req := ⟨0, 100, 10, 0, 10, 10⟩

/-- A catalogue with one retention of 10s per point and ample TTL. -/
def c8cat : Catalogue := fun _ => [⟨10, 1000, 0⟩]

/-- A request already planned on raw data with non-canonical native
interval 3: archive 0, `arch_interval = out_interval = 3`. -/
def c8req : Req := ⟨0, 300, 3, 0, 3, 3⟩

/-- A request over a window that starts after `now` (`from = 200 > 100`). -/
def c9req : Req := ⟨200, 300, 10, 0, 0, 0⟩

/-- A singles MDP-no bundle holding just `c9req`. -/
def c9bundle : ReqsPlan := ⟨[], ⟨[], [[c9req]]⟩⟩

/-- The plan produced for `c9bundle`: the ready-fallback archive 0. -/
def c9rp : ReqsPlan := ⟨[], ⟨[], [[⟨200, 300, 10, 0, 10, 10⟩]]⟩⟩

/-- The unplanned request behind the non-termination input: raw interval 3
against the schema's declared 10s. -/
def c10raw : Req := ⟨0, 300, 3, 0, 0, 0⟩

/-- A singles MDP-no bundle holding just `c10raw`. -/
def c10bundle : ReqsPlan := ⟨[], ⟨[], [[c10raw]]⟩⟩

/-- The state after phase 1 on `c10bundle`: `c8req`, fetching 100 points. -/
def c10rp : ReqsPlan := ⟨[], ⟨[], [[c8req]]⟩⟩

/-- Decidable equality for `Except`, needed to evaluate the planner's
results in closed theorems. -/
instance {e a : Type} [DecidableEq e] [DecidableEq a] : DecidableEq (Except e a) := fun x y =>
  match x, y with
  | .ok v, .ok w =>
    if h : v = w then isTrue (by rw [h])
    else isFalse (by intro hc; injection hc; contradiction)
  | .error v, .error w =>
    if h : v = w then isTrue (by rw [h])
    else isFalse (by intro hc; injection hc; contradiction)
  | .ok _, .error _ => isFalse (by intro hc; exact Except.noConfusion hc)
  | .error _, .ok _ => isFalse (by intro hc; exact Except.noConfusion hc)

/-! ### Counterexample and code-bug evaluation theorems -/

/-- C1 counterexample: `plan()` succeeds on `c1bundle` although the chosen
retention does not satisfy `valid(from, ttl)` (its `max_retention` is 100
while `ttl = 300`), because `findHighestResRet` falls back to the coarsest
ready retention; so it is not true that every planned request's retention
is valid, nor that an all-invalid retention list forces `UNSATISFIABLE`. -/
theorem c1_counterexample :
    planRequests 1 c1cat 300 0 300 c1bundle 100 0 0 = .ok c1rp ∧
    (c1cat 0).getD c1planned.archive ⟨0, 0, 0⟩ = ⟨10, 10, 0⟩ ∧
    ¬ (Retention.mk 10 10 0).Valid 0 (sub32 300 0) := by
  refine ⟨by decide, by decide, by decide⟩

/-- C2 counterexample: after a successful `plan()` on `c2bundle`, the one
PN-group holds a `mdp_yes` request with `out_interval = 60` and a `mdp_no`
request with `out_interval = 10`, so requests of the same PN-group do not
all share one `out_interval`. -/
theorem c2_counterexample :
    planRequests 1 c2cat 600 0 600 c2bundle 20 0 0 = .ok c2rp ∧
    c2rp.pngroups.map
      (fun p => (p.2.mdpyes.flatten.map Req.outInterval,
                 p.2.mdpno.flatten.map Req.outInterval)) = [([60], [10])] ∧
    (60 : Nat) ≠ 10 := by
  refine ⟨by decide, by decide, by decide⟩

/-- C3: evaluation at the failing input.  `plan()` succeeds on `c3bundle`
(PN-group MDP-yes, raw archive with non-canonical native interval 7) and
produces a request with `arch_interval = 7` but `out_interval = 10`, so
`out_interval % arch_interval = 3 ≠ 0`: the invariant claimed by the spec
(and intended by the code, see the TODO at query_engine.go:67-68) fails. -/
theorem c3_code_bug :
    planRequests 1 c3cat 1000 400 1000 c3bundle 100 0 0 = .ok c3rp ∧
    (∀ r ∈ (c3rp.pngroups.map (fun p => p.2.mdpyes.flatten)).flatten,
      r.archInterval = 7 ∧ r.outInterval = 10 ∧ r.outInterval % r.archInterval ≠ 0) := by
  refine ⟨by decide, by decide⟩

/-- C4 counterexample: with MDP = 1000 no candidate archive reaches
`MDP/2 = 500` points, and `planLowestResForMDPSingles` then chooses the
finest ready archive (index 0, 10 points fetched), not the coarsest valid
one (index 1 is valid): both disjuncts of the claim fail. -/
theorem c4_counterexample :
    planLowestResForMDPSingles c4cat 100 0 100 1000 0 [c4req] = some [c4planned] ∧
    c4planned.pointsFetch < 1000 / 2 ∧
    c4planned.archive = 0 ∧
    ((c4cat 0).getD 1 ⟨0, 0, 0⟩).Valid 0 (sub32 100 0) ∧
    ((c4cat 0).getD 1 ⟨0, 0, 0⟩).secondsPerPoint >
      ((c4cat 0).getD 0 ⟨0, 0, 0⟩).secondsPerPoint := by
  refine ⟨by decide, by decide, by decide, by decide, by decide⟩

/-- C8: evaluation at the failing input.  On a bucket planned at raw data
with non-canonical native interval 3, `reduceResSingles` returns success
(the 10s retention passes its `SecondsPerPoint > curOut` test) yet leaves
every request unchanged — `Req.plan` re-derives `arch_interval` and
`out_interval` from the native interval 3 — so neither does
`points_fetch()` decrease nor does any `out_interval` increase. -/
theorem c8_code_bug :
    reduceResSingles c8cat 300 0 300 0 [c8req] = some [c8req] ∧
    c8req.outInterval = 3 ∧ c8req.pointsFetch = 100 := by
  refine ⟨by decide, by decide, by decide⟩

/-- C9 counterexample: with `from = 200 > now = 100` (wrapped
`ttl = 2^32 - 100`), `plan()` still succeeds on a singles MDP-no bundle —
`findHighestResRet` only requires readiness and falls back to the coarsest
ready retention — so a window violating `from < to ≤ now` does not make
`plan()` return `UNSATISFIABLE` for every partition kind. -/
theorem c9_counterexample :
    planRequests 1 c1cat 100 200 300 c9bundle 100 0 0 = .ok c9rp ∧
    (100 : Nat) < 200 := by
  refine ⟨by decide, by decide⟩

/-- One soft pass on the non-termination state makes "progress" while
leaving the state unchanged: the reduction loop can never exit. -/
theorem c10_pass_fixpoint :
    softPassOnce c8cat 300 0 300 50 [] c10rp = .ok (true, false, c10rp) := by
  decide

/-- The soft loop on the non-termination state exhausts any amount of
fuel. -/
theorem c10_softLoop_diverges (n : Nat) :
    softLoop n c8cat 300 0 300 50 [] c10rp = .error .outOfFuel := by
  induction n with
  | zero => rfl
  | succ n ih =>
    have hc : (50 : Int) < (c10rp.pointsFetch : Int) := by decide
    simp only [softLoop, if_pos hc, c10_pass_fixpoint]
    simpa using ih

/-- C10: the soft-limit reduction loop of `planRequests` does not
terminate on `c10bundle` (one MDP-no singles request whose raw archive has
the non-canonical native interval 3 against a declared 10s retention, soft
limit 50 below the 100 fetched points): every pass reports progress
without changing the bundle, so for every fuel bound the loop is still
running; the claimed termination argument fails because a "successful"
reduction step need not increase any `out_interval`. -/
theorem c10_code_bug (fuel : Nat) :
    planRequests fuel c8cat 300 0 300 c10bundle 100 50 0 = .error .outOfFuel := by
  have hinit : planInitial c8cat 300 0 300 100 c10bundle = .ok c10rp := by decide
  have horder : sortGroupIdsByLen c10rp.pngroups = [] := by decide
  have h12 : planPhase12 fuel c8cat 300 0 300 100 50 c10bundle = .error .outOfFuel := by
    simp only [planPhase12, hinit, horder]
    rw [if_pos (by decide : (0 : Int) < 50)]
    exact c10_softLoop_diverges fuel
  simp only [planRequests, h12]

/-! ### C7: characterisation of `findLowestValidResForInterval` -/

/-- Unfolding `findLowRec` on a cons cell when the tail scan succeeds. -/
theorem findLowRec_cons_some {fromT ttl interval idx : Nat} {ret : Retention}
    {rest : List Retention} {pr : Nat × Retention}
    (h : findLowRec fromT ttl interval rest (idx + 1) = some pr) :
    findLowRec fromT ttl interval (ret :: rest) idx = some pr := by
  rw [findLowRec, h]

/-- Unfolding `findLowRec` on a cons cell when the tail scan fails. -/
theorem findLowRec_cons_none {fromT ttl interval idx : Nat} {ret : Retention}
    {rest : List Retention}
    (h : findLowRec fromT ttl interval rest (idx + 1) = none) :
    findLowRec fromT ttl interval (ret :: rest) idx =
      if LowSat fromT ttl interval ret then some (idx, ret) else none := by
  rw [findLowRec, h]

/-- When the descending scan fails, no retention satisfies the test. -/
theorem findLowRec_none {fromT ttl interval : Nat} :
    ∀ (rets : List Retention) (idx : Nat),
      findLowRec fromT ttl interval rets idx = none →
      ∀ k rk, rets.get? k = some rk → ¬ LowSat fromT ttl interval rk := by
  intro rets
  induction rets with
  | nil => intro idx _ k rk hk; simp [List.get?] at hk
  | cons ret rest ih =>
    intro idx h k rk hk
    cases hrec : findLowRec fromT ttl interval rest (idx + 1) with
    | some pr => rw [findLowRec_cons_some hrec] at h; exact absurd h (by simp)
    | none =>
      rw [findLowRec_cons_none hrec] at h
      cases k with
      | zero =>
        simp [List.get?] at hk
        subst hk
        intro hsat
        rw [if_pos hsat] at h
        exact absurd h (by simp)
      | succ k => exact ih (idx + 1) hrec k rk (by simpa [List.get?] using hk)

/-- A successful descending scan returns an in-range satisfying entry. -/
theorem findLowRec_some {fromT ttl interval : Nat} :
    ∀ (rets : List Retention) (idx i : Nat) (ret : Retention),
      findLowRec fromT ttl interval rets idx = some (i, ret) →
      ∃ k, i = idx + k ∧ rets.get? k = some ret ∧ LowSat fromT ttl interval ret := by
  intro rets
  induction rets with
  | nil => intro idx i ret h; exact absurd h (by simp [findLowRec])
  | cons r0 rest ih =>
    intro idx i ret h
    cases hrec : findLowRec fromT ttl interval rest (idx + 1) with
    | some pr =>
      rw [findLowRec_cons_some hrec] at h
      obtain ⟨k, hk1, hk2, hk3⟩ := ih (idx + 1) i ret (by rw [hrec, ← h])
      exact ⟨k + 1, by omega, by simpa [List.get?] using hk2, hk3⟩
    | none =>
      rw [findLowRec_cons_none hrec] at h
      by_cases hsat : LowSat fromT ttl interval r0
      · rw [if_pos hsat] at h
        obtain ⟨h1, h2⟩ : idx = i ∧ r0 = ret := by
          constructor <;> [exact congrArg Prod.fst (Option.some.inj h);
                          exact congrArg Prod.snd (Option.some.inj h)]
        exact ⟨0, by omega, by simp [List.get?, h2], by rw [← h2]; exact hsat⟩
      · rw [if_neg hsat] at h; exact absurd h (by simp)

/-- The returned index dominates every satisfying index: the scan prefers
the coarsest (last) satisfying retention. -/
theorem findLowRec_max {fromT ttl interval : Nat} :
    ∀ (rets : List Retention) (idx i : Nat) (ret : Retention),
      findLowRec fromT ttl interval rets idx = some (i, ret) →
      ∀ k rk, rets.get? k = some rk → LowSat fromT ttl interval rk → idx + k ≤ i := by
  intro rets
  induction rets with
  | nil => intro idx i ret h; exact absurd h (by simp [findLowRec])
  | cons r0 rest ih =>
    intro idx i ret h k rk hk hsat
    cases hrec : findLowRec fromT ttl interval rest (idx + 1) with
    | some pr =>
      rw [findLowRec_cons_some hrec] at h
      have hrec' : findLowRec fromT ttl interval rest (idx + 1) = some (i, ret) := by
        rw [hrec, ← h]
      cases k with
      | zero =>
        obtain ⟨k', hk1, _, _⟩ := findLowRec_some rest (idx + 1) i ret hrec'
        omega
      | succ k =>
        have := ih (idx + 1) i ret hrec' k rk (by simpa [List.get?] using hk) hsat
        omega
    | none =>
      rw [findLowRec_cons_none hrec] at h
      cases k with
      | zero =>
        by_cases hs0 : LowSat fromT ttl interval r0
        · rw [if_pos hs0] at h
          have h1 : idx = i := congrArg Prod.fst (Option.some.inj h)
          omega
        · rw [if_neg hs0] at h; exact absurd h (by simp)
      | succ k =>
        exact absurd hsat (findLowRec_none rest (idx + 1) hrec k rk (by simpa [List.get?] using hk))

/-- C7: on a retention list sorted ascending by interval and a positive
target interval, `findLowestValidResForInterval` returns the coarsest
retention that is valid and whose interval divides the target; when a
valid exact match exists, the returned interval equals the target (so a
finer divisor wins only without an exact match); and it fails exactly when
no retention satisfies the test. -/
theorem c7_findLowestValid (rets : List Retention) (fromT ttl interval : Nat)
    (hpair : rets.Pairwise (fun a b => a.secondsPerPoint ≤ b.secondsPerPoint))
    (hint : 0 < interval) :
    (∀ i ret, findLowestValidResForInterval rets fromT ttl interval = some (i, ret) →
      rets.get? i = some ret ∧ ret.Valid fromT ttl ∧
      interval % ret.secondsPerPoint = 0 ∧
      (∀ k rk, rets.get? k = some rk → rk.Valid fromT ttl →
        interval % rk.secondsPerPoint = 0 → rk.secondsPerPoint ≤ ret.secondsPerPoint) ∧
      ((∃ k rk, rets.get? k = some rk ∧ rk.Valid fromT ttl ∧
          rk.secondsPerPoint = interval) → ret.secondsPerPoint = interval)) ∧
    (findLowestValidResForInterval rets fromT ttl interval = none →
      ∀ k rk, rets.get? k = some rk →
        ¬ (rk.Valid fromT ttl ∧ interval % rk.secondsPerPoint = 0)) := by
  have hsort : ∀ j k rj rk, j ≤ k → rets.get? j = some rj → rets.get? k = some rk →
      rj.secondsPerPoint ≤ rk.secondsPerPoint := by
    intro j k rj rk hjk hj hk
    obtain ⟨hjl, hje⟩ := List.get?_eq_some.mp hj
    obtain ⟨hkl, hke⟩ := List.get?_eq_some.mp hk
    rcases Nat.lt_or_ge j k with hlt | hge
    · have := List.pairwise_iff_get.mp hpair ⟨j, hjl⟩ ⟨k, hkl⟩ (Fin.mk_lt_mk.mpr hlt)
      rw [hje, hke] at this
      exact this
    · have hjk' : j = k := by omega
      subst hjk'
      rw [hj] at hk
      rw [Option.some.inj hk]
  constructor
  · intro i ret h
    obtain ⟨k, hk1, hk2, hv, hd⟩ := findLowRec_some rets 0 i ret h
    have hmax : ∀ j rj, rets.get? j = some rj → LowSat fromT ttl interval rj → j ≤ i :=
      fun j rj hget hs => by have := findLowRec_max rets 0 i ret h j rj hget hs; omega
    have hki : k = i := by omega
    subst hki
    refine ⟨hk2, hv, hd, ?_, ?_⟩
    · intro j rj hj hjv hjd
      exact hsort j k rj ret (hmax j rj hj ⟨hjv, hjd⟩) hj hk2
    · rintro ⟨j, rj, hj, hjv, hje⟩
      have hjd : interval % rj.secondsPerPoint = 0 := by rw [hje]; simp
      have hji : j ≤ k := hmax j rj hj ⟨hjv, hjd⟩
      have hle : rj.secondsPerPoint ≤ ret.secondsPerPoint := hsort j k rj ret hji hj hk2
      have hdvd : ret.secondsPerPoint ∣ interval := Nat.dvd_of_mod_eq_zero hd
      have := Nat.le_of_dvd hint hdvd
      omega
  · intro h k rk hget
    exact findLowRec_none rets 0 h k rk hget

/-- C7 witness: the characterisation applied to the 10s/60s catalogue at
target interval 60 (the exact match at index 1 is returned). -/
theorem c7_witness :
    (c2cat 0).get? 1 = some ⟨60, 100, 0⟩ ∧
    (Retention.mk 60 100 0).Valid 0 300 ∧
    (Retention.mk 60 100 0).secondsPerPoint = 60 := by
  have h := (c7_findLowestValid (c2cat 0) 0 300 60 (by decide) (by decide)).1
    1 ⟨60, 100, 0⟩ (by decide)
  exact ⟨h.1, h.2.1, h.2.2.2.2 ⟨1, ⟨60, 100, 0⟩, by decide, by decide, by decide⟩⟩

/-! ### C5: the hard-limit gate -/

/-- Unfolding `planRequests` when phases 1-2 fail. -/
theorem planRequests_of_phase12_error {fuel : Nat} {cat : Catalogue}
    {now fromT toT : Nat} {rp0 : ReqsPlan} {mdp : Nat} {soft hard : Int}
    {e : PlanError}
    (h : planPhase12 fuel cat now fromT toT mdp soft rp0 = .error e) :
    planRequests fuel cat now fromT toT rp0 mdp soft hard = .error e := by
  rw [planRequests, h]

/-- Unfolding `planRequests` when phases 1-2 succeed: only the hard gate
remains. -/
theorem planRequests_of_phase12_ok {fuel : Nat} {cat : Catalogue}
    {now fromT toT : Nat} {rp0 : ReqsPlan} {mdp : Nat} {soft hard : Int}
    {rp2 : ReqsPlan}
    (h : planPhase12 fuel cat now fromT toT mdp soft rp0 = .ok rp2) :
    planRequests fuel cat now fromT toT rp0 mdp soft hard =
      if 0 < hard ∧ hard < (rp2.pointsFetch : Int) then .error .maxPointsPerReq
      else .ok rp2 := by
  rw [planRequests, h]

/-- C5: whenever `planRequests` is called with `hard_limit > 0` and returns
a non-error plan, its total `points_fetch()` is at most the hard limit;
whenever the result of phases 1-2 (initial planning plus soft-limit loop)
exceeds a positive hard limit, the `TOO_MANY_POINTS` error is returned;
and a non-positive hard limit disables the gate entirely (the result is
exactly the phase 1-2 result). -/
theorem c5_hard_limit (fuel : Nat) (cat : Catalogue) (now fromT toT : Nat)
    (rp0 : ReqsPlan) (mdp : Nat) (soft hard : Int) :
    (∀ rp, planRequests fuel cat now fromT toT rp0 mdp soft hard = .ok rp →
      0 < hard → (rp.pointsFetch : Int) ≤ hard) ∧
    (∀ rp2, planPhase12 fuel cat now fromT toT mdp soft rp0 = .ok rp2 →
      0 < hard → hard < (rp2.pointsFetch : Int) →
      planRequests fuel cat now fromT toT rp0 mdp soft hard = .error .maxPointsPerReq) ∧
    (hard ≤ 0 →
      planRequests fuel cat now fromT toT rp0 mdp soft hard =
        planPhase12 fuel cat now fromT toT mdp soft rp0) := by
  refine ⟨?_, ?_, ?_⟩
  · intro rp h hh
    cases h12 : planPhase12 fuel cat now fromT toT mdp soft rp0 with
    | error e => rw [planRequests_of_phase12_error h12] at h; exact absurd h (by simp)
    | ok rp2 =>
      rw [planRequests_of_phase12_ok h12] at h
      by_cases hc : 0 < hard ∧ hard < (rp2.pointsFetch : Int)
      · rw [if_pos hc] at h; exact absurd h (by simp)
      · rw [if_neg hc] at h
        have heq : rp2 = rp := by simpa using h
        subst heq
        rcases not_and_or.mp hc with h1 | h2
        · exact absurd hh h1
        · omega
  · intro rp2 h12 hh hgt
    rw [planRequests_of_phase12_ok h12, if_pos ⟨hh, hgt⟩]
  · intro hle
    cases h12 : planPhase12 fuel cat now fromT toT mdp soft rp0 with
    | error e => exact planRequests_of_phase12_error h12
    | ok rp2 =>
      rw [planRequests_of_phase12_ok h12, if_neg]
      intro hc
      exact absurd hle (by omega)

/-- C5 witness: the gate applied to the `c1bundle` plan.  With hard limit
100 the 30 fetched points pass; with hard limit 5 phases 1-2 still succeed
but the gate rejects with `TOO_MANY_POINTS`. -/
theorem c5_hard_limit_witness :
    (c1rp.pointsFetch : Int) ≤ 100 ∧
    planRequests 1 c1cat 300 0 300 c1bundle 100 0 5 = .error .maxPointsPerReq := by
  constructor
  · exact (c5_hard_limit 1 c1cat 300 0 300 c1bundle 100 0 100).1 c1rp (by decide) (by decide)
  · exact (c5_hard_limit 1 c1cat 300 0 300 c1bundle 100 0 5).2.1 c1rp (by decide)
      (by decide) (by decide)

/-! ### C4: the MDP-yes planners' fallback behaviour -/

/-- Unfolding `mdpGo` at a successor index present in the list. -/
theorem mdpGo_succ_some {rets : List Retention} {fromT mdp i : Nat} {r0 : Req}
    {ret : Retention} {acc : Option (Nat × Retention)}
    (hg : rets.get? i = some ret) :
    mdpGo rets fromT mdp r0 (i + 1) acc =
      if fromT < ret.ready then mdpGo rets fromT mdp r0 i acc
      else if mdp / 2 ≤ (r0.plan i ret).pointsFetch then some (i, ret)
      else mdpGo rets fromT mdp r0 i (some (i, ret)) := by
  rw [mdpGo, hg]

/-- Unfolding `mdpGo` at a successor index past the end of the list. -/
theorem mdpGo_succ_none {rets : List Retention} {fromT mdp i : Nat} {r0 : Req}
    {acc : Option (Nat × Retention)}
    (hg : rets.get? i = none) :
    mdpGo rets fromT mdp r0 (i + 1) acc = mdpGo rets fromT mdp r0 i acc := by
  rw [mdpGo, hg]

/-- Characterisation of the descending MDP scan: a successful scan returns
a ready retention, and either its tentative plan fetches at least `mdp/2`
points or every finer archive is not ready (the scan fell through to the
finest ready candidate). -/
theorem mdpGo_char (rets : List Retention) (fromT mdp : Nat) (r0 : Req) :
    ∀ (i : Nat) (acc : Option (Nat × Retention)),
      (∀ k rk, acc = some (k, rk) → rets.get? k = some rk ∧ rk.ready ≤ fromT ∧
        ∀ j, i ≤ j → j < k → ∀ rj, rets.get? j = some rj → fromT < rj.ready) →
      ∀ i' ret', mdpGo rets fromT mdp r0 i acc = some (i', ret') →
        rets.get? i' = some ret' ∧ ret'.ready ≤ fromT ∧
        (mdp / 2 ≤ (r0.plan i' ret').pointsFetch ∨
          ∀ j rj, j < i' → rets.get? j = some rj → fromT < rj.ready) := by
  intro i
  induction i with
  | zero =>
    intro acc hacc i' ret' h
    obtain ⟨h1, h2, h3⟩ := hacc i' ret' h
    exact ⟨h1, h2, Or.inr (fun j rj hj hget => h3 j (Nat.zero_le j) hj rj hget)⟩
  | succ i ih =>
    intro acc hacc i' ret' h
    cases hg : rets.get? i with
    | none =>
      rw [mdpGo_succ_none hg] at h
      refine ih acc ?_ i' ret' h
      intro k rk hk
      obtain ⟨h1, h2, h3⟩ := hacc k rk hk
      refine ⟨h1, h2, fun j hij hjk rj hget => ?_⟩
      rcases Nat.lt_or_ge j (i + 1) with hlt | hge
      · have : j = i := by omega
        subst this
        rw [hg] at hget
        exact absurd hget (by simp)
      · exact h3 j hge hjk rj hget
    | some ret =>
      rw [mdpGo_succ_some hg] at h
      by_cases hready : fromT < ret.ready
      · rw [if_pos hready] at h
        refine ih acc ?_ i' ret' h
        intro k rk hk
        obtain ⟨h1, h2, h3⟩ := hacc k rk hk
        refine ⟨h1, h2, fun j hij hjk rj hget => ?_⟩
        rcases Nat.lt_or_ge j (i + 1) with hlt | hge
        · have : j = i := by omega
          subst this
          rw [hg] at hget
          rw [← Option.some.inj hget]
          exact hready
        · exact h3 j hge hjk rj hget
      · rw [if_neg hready] at h
        by_cases hth : mdp / 2 ≤ (r0.plan i ret).pointsFetch
        · rw [if_pos hth] at h
          obtain ⟨hi, hret⟩ : i = i' ∧ ret = ret' := by
            constructor <;> [exact congrArg Prod.fst (Option.some.inj h);
                            exact congrArg Prod.snd (Option.some.inj h)]
          subst hi; subst hret
          exact ⟨hg, Nat.le_of_not_lt hready, Or.inl hth⟩
        · rw [if_neg hth] at h
          refine ih (some (i, ret)) ?_ i' ret' h
          intro k rk hk
          obtain ⟨hk1, hk2⟩ : i = k ∧ ret = rk := by
            constructor <;> [exact congrArg Prod.fst (Option.some.inj hk);
                            exact congrArg Prod.snd (Option.some.inj hk)]
          subst hk1; subst hk2
          exact ⟨hg, Nat.le_of_not_lt hready, fun j hij hjk rj hget => by omega⟩

/-- The in-range candidate LCMs of a combination list. -/
def inRangeCands (minI maxI : Nat) (combos : List (List Nat)) : List Nat :=
  (combos.map lcmList).filter (fun c => decide (minI ≤ c ∧ c ≤ maxI))

/-- The running minimum exactly as the loop computes it. -/
def minFold (li : Nat) (cands : List Nat) : Nat :=
  cands.foldl (fun a c => if c < a then c else a) li

/-- Unfolding the selection loop on an out-of-range candidate. -/
theorem lowResLoop_cons_out {cat : Catalogue} {rbr : ReqsByRet}
    {fromT ttl minI maxI : Nat} {combo : List Nat} {rest : List (List Nat)}
    {ms ri li : Nat}
    (hrange : lcmList combo < minI ∨ maxI < lcmList combo) :
    lowResLoop cat rbr fromT ttl minI maxI (combo :: rest) ms ri li =
      lowResLoop cat rbr fromT ttl minI maxI rest ms ri
        (if lcmList combo < li then lcmList combo else li) := by
  rw [lowResLoop, if_pos hrange]

/-- Unfolding the selection loop on an in-range candidate whose score is
defined. -/
theorem lowResLoop_cons_in {cat : Catalogue} {rbr : ReqsByRet}
    {fromT ttl minI maxI : Nat} {combo : List Nat} {rest : List (List Nat)}
    {ms ri li sc : Nat}
    (hrange : ¬ (lcmList combo < minI ∨ maxI < lcmList combo))
    (hscore : scoreFor cat rbr fromT ttl (lcmList combo) = some sc) :
    lowResLoop cat rbr fromT ttl minI maxI (combo :: rest) ms ri li =
      (if ms < sc then
        lowResLoop cat rbr fromT ttl minI maxI rest sc (lcmList combo)
          (if lcmList combo < li then lcmList combo else li)
      else
        lowResLoop cat rbr fromT ttl minI maxI rest ms ri
          (if lcmList combo < li then lcmList combo else li)) := by
  rw [lowResLoop, if_neg hrange, hscore]

/-- Unfolding the selection loop on an in-range candidate whose score
computation panics. -/
theorem lowResLoop_cons_panic {cat : Catalogue} {rbr : ReqsByRet}
    {fromT ttl minI maxI : Nat} {combo : List Nat} {rest : List (List Nat)}
    {ms ri li : Nat}
    (hrange : ¬ (lcmList combo < minI ∨ maxI < lcmList combo))
    (hscore : scoreFor cat rbr fromT ttl (lcmList combo) = none) :
    lowResLoop cat rbr fromT ttl minI maxI (combo :: rest) ms ri li = none := by
  rw [lowResLoop, if_neg hrange, hscore]

/-- Any result of the `getLowestResFromSetMatching` loop is either an
in-range candidate LCM, the incoming best pick, or the running minimum of
all candidate LCMs (the fallback). -/
theorem lowResLoop_cases (cat : Catalogue) (rbr : ReqsByRet) (fromT ttl minI maxI : Nat) :
    ∀ (L : List (List Nat)) (ms ri li r : Nat),
      lowResLoop cat rbr fromT ttl minI maxI L ms ri li = some r →
      r ∈ inRangeCands minI maxI L ∨ (ri ≠ 0 ∧ r = ri) ∨
        r = minFold li (L.map lcmList) := by
  intro L
  induction L with
  | nil =>
    intro ms ri li r h
    rw [lowResLoop] at h
    by_cases hri : ri = 0
    · rw [if_pos hri] at h
      exact Or.inr (Or.inr (Option.some.inj h).symm)
    · rw [if_neg hri] at h
      exact Or.inr (Or.inl ⟨hri, (Option.some.inj h).symm⟩)
  | cons combo rest ih =>
    intro ms ri li r h
    have hfold : minFold li ((combo :: rest).map lcmList) =
        minFold (if lcmList combo < li then lcmList combo else li) (rest.map lcmList) := rfl
    have hsub : ∀ x, x ∈ inRangeCands minI maxI rest →
        x ∈ inRangeCands minI maxI (combo :: rest) := by
      intro x hx
      simp only [inRangeCands, List.map_cons]
      rcases List.mem_filter.mp hx with ⟨hmem, hpred⟩
      exact List.mem_filter.mpr ⟨List.mem_cons_of_mem _ hmem, hpred⟩
    by_cases hrange : lcmList combo < minI ∨ maxI < lcmList combo
    · rw [lowResLoop_cons_out hrange] at h
      rcases ih ms ri _ r h with h1 | h2 | h3
      · exact Or.inl (hsub r h1)
      · exact Or.inr (Or.inl h2)
      · rw [hfold]
        exact Or.inr (Or.inr h3)
    · cases hscore : scoreFor cat rbr fromT ttl (lcmList combo) with
      | none => rw [lowResLoop_cons_panic hrange hscore] at h; exact absurd h (by simp)
      | some sc =>
        rw [lowResLoop_cons_in hrange hscore] at h
        push_neg at hrange
        have hmemc : lcmList combo ∈ inRangeCands minI maxI (combo :: rest) := by
          simp only [inRangeCands, List.map_cons]
          exact List.mem_filter.mpr ⟨List.mem_cons_self _ _,
            by simpa using ⟨hrange.1, hrange.2⟩⟩
        by_cases himp : ms < sc
        · rw [if_pos himp] at h
          rcases ih sc (lcmList combo) _ r h with h1 | h2 | h3
          · exact Or.inl (hsub r h1)
          · rw [h2.2]
            exact Or.inl hmemc
          · rw [hfold]
            exact Or.inr (Or.inr h3)
        · rw [if_neg himp] at h
          rcases ih ms ri _ r h with h1 | h2 | h3
          · exact Or.inl (hsub r h1)
          · exact Or.inr (Or.inl h2)
          · rw [hfold]
            exact Or.inr (Or.inr h3)

/-- Unfolding `planLowestResForMDPSingles` on a non-empty bucket when the
scan fails. -/
theorem planMDPSingles_go_none {cat : Catalogue} {now fromT toT mdp sid : Nat}
    {r0 : Req} {rest : List Req}
    (hgo : mdpGo (cat sid) fromT mdp r0 (cat sid).length none = none) :
    planLowestResForMDPSingles cat now fromT toT mdp sid (r0 :: rest) = none := by
  rw [planLowestResForMDPSingles, hgo]

/-- Unfolding `planLowestResForMDPSingles` on a non-empty bucket when the
scan succeeds. -/
theorem planMDPSingles_go_some {cat : Catalogue} {now fromT toT mdp sid : Nat}
    {r0 : Req} {rest : List Req} {pr : Nat × Retention}
    (hgo : mdpGo (cat sid) fromT mdp r0 (cat sid).length none = some pr) :
    planLowestResForMDPSingles cat now fromT toT mdp sid (r0 :: rest) =
      some ((r0 :: rest).map (fun r => r.plan pr.1 pr.2)) := by
  rw [planLowestResForMDPSingles, hgo]

/-- `planLowestResForMDPMulti` written as a chain of matches. -/
theorem planMDPMulti_unfold (cat : Catalogue) (now fromT toT mdp : Nat)
    (rbr : ReqsByRet) :
    planLowestResForMDPMulti cat now fromT toT mdp rbr =
      match getValidIntervalsSet cat rbr fromT (sub32 now fromT) with
      | none => .error .notOk
      | some set =>
        match getLowestResFromSetMatching cat rbr fromT (sub32 now fromT) 0
            (mul32 2 (sub32 toT fromT) / mdp) set with
        | none => .error .panicked
        | some interval =>
          match planToMulti cat now fromT toT interval rbr with
          | none => .error .panicked
          | some rbr' => .ok rbr' := rfl

/-- C4, amended: after a successful `planLowestResForMDPSingles` the
chosen archive is ready and either the probed first request's tentative
plan fetches at least `MDP/2` points or the archive is the finest ready
one (every finer archive is not ready) — not the coarsest valid one; and
after a successful `planLowestResForMDPMulti` the common interval is
either an LCM of valid-interval combinations lying within
`[0, 2*(to-from)/MDP]` (so that canonical-raw requests fetch at least
`MDP/2` points) or, when no combination fits, the smallest LCM seen
(capped by the loop's MaxUint32 sentinel) — again the finest fallback, not
the coarsest. -/
theorem c4_mdp_fallback :
    (∀ (cat : Catalogue) (now fromT toT mdp sid : Nat) (r0 : Req)
        (rest out : List Req),
      planLowestResForMDPSingles cat now fromT toT mdp sid (r0 :: rest) = some out →
      ∃ i ret, (cat sid).get? i = some ret ∧ ret.ready ≤ fromT ∧
        out = (r0 :: rest).map (fun r => r.plan i ret) ∧
        (mdp / 2 ≤ (r0.plan i ret).pointsFetch ∨
          ∀ j rj, j < i → (cat sid).get? j = some rj → fromT < rj.ready)) ∧
    (∀ (cat : Catalogue) (now fromT toT mdp : Nat) (rbr out : ReqsByRet),
      planLowestResForMDPMulti cat now fromT toT mdp rbr = .ok out →
      ∃ set interval,
        getValidIntervalsSet cat rbr fromT (sub32 now fromT) = some set ∧
        planToMulti cat now fromT toT interval rbr = some out ∧
        (interval ∈ inRangeCands 0 (mul32 2 (sub32 toT fromT) / mdp)
            (allCombinationsUint32 set) ∨
          interval = minFold (pow32 - 1) ((allCombinationsUint32 set).map lcmList))) := by
  constructor
  · intro cat now fromT toT mdp sid r0 rest out h
    cases hgo : mdpGo (cat sid) fromT mdp r0 (cat sid).length none with
    | none => rw [planMDPSingles_go_none hgo] at h; exact absurd h (by simp)
    | some pr =>
      obtain ⟨i, ret⟩ := pr
      rw [planMDPSingles_go_some hgo] at h
      have hc := mdpGo_char (cat sid) fromT mdp r0 (cat sid).length none
        (by intro k rk hk; exact absurd hk (by simp)) i ret hgo
      exact ⟨i, ret, hc.1, hc.2.1, (Option.some.inj h).symm, hc.2.2⟩
  · intro cat now fromT toT mdp rbr out h
    rw [planMDPMulti_unfold] at h
    split at h
    · exact absurd h (by simp)
    · rename_i set hset
      split at h
      · exact absurd h (by simp)
      · rename_i interval hlow
        split at h
        · exact absurd h (by simp)
        · rename_i rbr' hptm
          have hout : rbr' = out := by simpa using h
          subst hout
          refine ⟨set, interval, hset, hptm, ?_⟩
          have hcases := lowResLoop_cases cat rbr fromT (sub32 now fromT) 0
            (mul32 2 (sub32 toT fromT) / mdp) (allCombinationsUint32 set)
            0 0 (pow32 - 1) interval hlow
          rcases hcases with h1 | h2 | h3
          · exact Or.inl h1
          · exact absurd rfl h2.1
          · exact Or.inr h3

/-- Schema X of spec scenario 4: 10s and 300s archives with long TTLs. -/
def s4catX : List Retention := [⟨10, 60480, 0⟩, ⟨300, 20160, 0⟩]

/-- Schema Y of spec scenario 4: 10s and 240s archives. -/
def s4catY : List Retention := [⟨10, 60480, 0⟩, ⟨240, 10800, 0⟩]

/-- The two-schema catalogue of spec scenario 4. -/
def s4cat : Catalogue := fun sid => if sid = 0 then s4catX else s4catY

/-- One unplanned request over a 2-day window ending at `now`. -/
def s4req : Req := ⟨1000000, 1172800, 10, 0, 0, 0⟩

/-- The planned outcome of scenario 4: X reads its 300s archive, Y reads
10s and normalises to 300s. -/
def s4out : ReqsByRet :=
  [[⟨1000000, 1172800, 10, 1, 300, 300⟩], [⟨1000000, 1172800, 10, 0, 10, 300⟩]]

/-- C4 witness: the amended statement applied to the concrete singles
counterexample input and to spec scenario 4 for the multi planner. -/
theorem c4_mdp_fallback_witness :
    (∃ i ret, (c4cat 0).get? i = some ret ∧ ret.ready ≤ 0 ∧
      [c4planned] = [c4req].map (fun r => r.plan i ret) ∧
      (1000 / 2 ≤ (c4req.plan i ret).pointsFetch ∨
        ∀ j rj, j < i → (c4cat 0).get? j = some rj → 0 < rj.ready)) ∧
    (∃ set interval,
      getValidIntervalsSet s4cat [[s4req], [s4req]] 1000000 (sub32 1172800 1000000) = some set ∧
      planToMulti s4cat 1172800 1000000 1172800 interval [[s4req], [s4req]] = some s4out ∧
      (interval ∈ inRangeCands 0 (mul32 2 (sub32 1172800 1000000) / 800)
          (allCombinationsUint32 set) ∨
        interval = minFold (pow32 - 1) ((allCombinationsUint32 set).map lcmList))) := by
  constructor
  · exact c4_mdp_fallback.1 c4cat 100 0 100 1000 0 c4req [] [c4planned] (by decide)
  · exact c4_mdp_fallback.2 s4cat 1172800 1000000 1172800 800 [[s4req], [s4req]]
      s4out (by decide)

/-! ### C6: full characterisation of `getLowestResFromSetMatching` -/

/-- The score of a candidate as a total function (0 when the score
computation would panic). -/
def scoreOf (cat : Catalogue) (rbr : ReqsByRet) (fromT ttl c : Nat) : Nat :=
  (scoreFor cat rbr fromT ttl c).getD 0

/-- First-encountered argmax with strict improvement, mirroring the Go
loop's `score > maxScore` update over the in-range candidates. -/
def pickBest (f : Nat → Nat) : Nat → Nat → List Nat → Nat × Nat
  | ms, ri, [] => (ms, ri)
  | ms, ri, c :: cs => if ms < f c then pickBest f (f c) c cs else pickBest f ms ri cs

/-- `inRangeCands` drops an out-of-range head candidate. -/
theorem inRangeCands_cons_out {minI maxI : Nat} {combo : List Nat}
    {rest : List (List Nat)}
    (hrange : lcmList combo < minI ∨ maxI < lcmList combo) :
    inRangeCands minI maxI (combo :: rest) = inRangeCands minI maxI rest := by
  simp only [inRangeCands, List.map_cons]
  rw [List.filter_cons_of_neg]
  simp only [decide_eq_true_eq]
  push_neg
  intro h1
  omega

/-- `inRangeCands` keeps an in-range head candidate. -/
theorem inRangeCands_cons_in {minI maxI : Nat} {combo : List Nat}
    {rest : List (List Nat)}
    (hrange : ¬ (lcmList combo < minI ∨ maxI < lcmList combo)) :
    inRangeCands minI maxI (combo :: rest) =
      lcmList combo :: inRangeCands minI maxI rest := by
  simp only [inRangeCands, List.map_cons]
  rw [List.filter_cons_of_pos]
  simp only [decide_eq_true_eq]
  omega

/-- When every in-range candidate's score is defined, the selection loop
computes `pickBest` over the in-range candidates, falling back to the
running minimum when nothing was picked. -/
theorem lowResLoop_eq_pickBest (cat : Catalogue) (rbr : ReqsByRet)
    (fromT ttl minI maxI : Nat) :
    ∀ (L : List (List Nat)) (ms ri li : Nat),
      (∀ c ∈ inRangeCands minI maxI L,
        scoreFor cat rbr fromT ttl c = some (scoreOf cat rbr fromT ttl c)) →
      lowResLoop cat rbr fromT ttl minI maxI L ms ri li =
        some
          (if (pickBest (scoreOf cat rbr fromT ttl) ms ri (inRangeCands minI maxI L)).2 = 0
           then minFold li (L.map lcmList)
           else (pickBest (scoreOf cat rbr fromT ttl) ms ri (inRangeCands minI maxI L)).2) := by
  intro L
  induction L with
  | nil =>
    intro ms ri li _
    have hir : inRangeCands minI maxI ([] : List (List Nat)) = [] := rfl
    rw [lowResLoop, hir]
    rfl
  | cons combo rest ih =>
    intro ms ri li hsc
    have hfold : minFold li ((combo :: rest).map lcmList) =
        minFold (if lcmList combo < li then lcmList combo else li) (rest.map lcmList) := rfl
    by_cases hrange : lcmList combo < minI ∨ maxI < lcmList combo
    · rw [lowResLoop_cons_out hrange, inRangeCands_cons_out hrange, hfold]
      exact ih ms ri _ (by rw [← inRangeCands_cons_out hrange]; exact hsc)
    · have hir := @inRangeCands_cons_in minI maxI combo rest hrange
      have hhead : scoreFor cat rbr fromT ttl (lcmList combo) =
          some (scoreOf cat rbr fromT ttl (lcmList combo)) := by
        refine hsc _ ?_
        rw [hir]
        exact List.mem_cons_self _ _
      rw [lowResLoop_cons_in hrange hhead, hir]
      have htail : ∀ c ∈ inRangeCands minI maxI rest,
          scoreFor cat rbr fromT ttl c = some (scoreOf cat rbr fromT ttl c) := by
        intro c hc
        refine hsc c ?_
        rw [hir]
        exact List.mem_cons_of_mem _ hc
      by_cases himp : ms < scoreOf cat rbr fromT ttl (lcmList combo)
      · rw [if_pos himp, pickBest, if_pos himp, hfold]
        exact ih _ _ _ htail
      · rw [if_neg himp, pickBest, if_neg himp, hfold]
        exact ih ms ri _ htail

/-- The running maximum of `pickBest` dominates the incoming maximum and
every candidate's score. -/
theorem pickBest_fst (f : Nat → Nat) :
    ∀ (cs : List Nat) (ms ri : Nat),
      ms ≤ (pickBest f ms ri cs).1 ∧ ∀ c ∈ cs, f c ≤ (pickBest f ms ri cs).1 := by
  intro cs
  induction cs with
  | nil => intro ms ri; exact ⟨Nat.le_refl ms, by intro c hc; exact absurd hc (by simp)⟩
  | cons c cs ih =>
    intro ms ri
    rw [pickBest]
    by_cases himp : ms < f c
    · rw [if_pos himp]
      obtain ⟨h1, h2⟩ := ih (f c) c
      refine ⟨by omega, ?_⟩
      intro d hd
      rcases List.mem_cons.mp hd with hd | hd
      · rw [hd]; exact h1
      · exact h2 d hd
    · rw [if_neg himp]
      obtain ⟨h1, h2⟩ := ih ms ri
      refine ⟨h1, ?_⟩
      intro d hd
      rcases List.mem_cons.mp hd with hd | hd
      · rw [hd]; omega
      · exact h2 d hd

/-- Without strict improvement, `pickBest` keeps the incoming pick. -/
theorem pickBest_self (f : Nat → Nat) :
    ∀ (cs : List Nat) (ms ri : Nat),
      (pickBest f ms ri cs).1 = ms → pickBest f ms ri cs = (ms, ri) := by
  intro cs
  induction cs with
  | nil => intro ms ri _; rfl
  | cons c cs ih =>
    intro ms ri h
    rw [pickBest] at h ⊢
    by_cases himp : ms < f c
    · rw [if_pos himp] at h
      obtain ⟨h1, _⟩ := pickBest_fst f cs (f c) c
      omega
    · rw [if_neg himp] at h ⊢
      exact ih ms ri h

/-- With strict improvement, `pickBest` returns the first candidate whose
score equals the final maximum; every earlier candidate scores strictly
lower. -/
theorem pickBest_improved (f : Nat → Nat) :
    ∀ (cs : List Nat) (ms ri : Nat),
      ms < (pickBest f ms ri cs).1 →
      ∃ l1 l2, cs = l1 ++ (pickBest f ms ri cs).2 :: l2 ∧
        f (pickBest f ms ri cs).2 = (pickBest f ms ri cs).1 ∧
        ∀ c ∈ l1, f c < (pickBest f ms ri cs).1 := by
  intro cs
  induction cs with
  | nil =>
    intro ms ri h
    rw [pickBest] at h
    omega
  | cons c cs ih =>
    intro ms ri h
    rw [pickBest] at h ⊢
    by_cases himp : ms < f c
    · rw [if_pos himp] at h ⊢
      rcases Nat.lt_or_ge (f c) (pickBest f (f c) c cs).1 with hlt | hge
      · obtain ⟨l1, l2, heq, hfe, hlt2⟩ := ih (f c) c hlt
        exact ⟨c :: l1, l2, by rw [List.cons_append, ← heq], hfe,
          by intro d hd; rcases List.mem_cons.mp hd with hd | hd;
             · rw [hd]; omega
             · exact hlt2 d hd⟩
      · have hfst : (pickBest f (f c) c cs).1 = f c := by
          obtain ⟨h1, _⟩ := pickBest_fst f cs (f c) c
          omega
        have hres := pickBest_self f cs (f c) c hfst
        rw [hres]
        exact ⟨[], cs, rfl, rfl, by intro d hd; exact absurd hd (by simp)⟩
    · rw [if_neg himp] at h ⊢
      obtain ⟨l1, l2, heq, hfe, hlt2⟩ := ih ms ri h
      exact ⟨c :: l1, l2, by rw [List.cons_append, ← heq], hfe,
        by intro d hd; rcases List.mem_cons.mp hd with hd | hd;
           · rw [hd]; omega
           · exact hlt2 d hd⟩

/-- The running minimum is bounded by its seed and by every candidate. -/
theorem minFold_le :
    ∀ (cands : List Nat) (li : Nat),
      minFold li cands ≤ li ∧ ∀ c ∈ cands, minFold li cands ≤ c := by
  intro cands
  induction cands with
  | nil => intro li; exact ⟨Nat.le_refl li, by intro c hc; exact absurd hc (by simp)⟩
  | cons c cs ih =>
    intro li
    have hstep : minFold li (c :: cs) = minFold (if c < li then c else li) cs := rfl
    rw [hstep]
    by_cases hlt : c < li
    · rw [if_pos hlt]
      obtain ⟨h1, h2⟩ := ih c
      refine ⟨by omega, ?_⟩
      intro d hd
      rcases List.mem_cons.mp hd with hd | hd
      · rw [hd]; exact h1
      · exact h2 d hd
    · rw [if_neg hlt]
      obtain ⟨h1, h2⟩ := ih li
      refine ⟨h1, ?_⟩
      intro d hd
      rcases List.mem_cons.mp hd with hd | hd
      · rw [hd]; omega
      · exact h2 d hd

/-- The running minimum is the seed (with every candidate at least the
seed) or one of the candidates. -/
theorem minFold_mem :
    ∀ (cands : List Nat) (li : Nat),
      (minFold li cands = li ∧ ∀ c ∈ cands, li ≤ c) ∨ minFold li cands ∈ cands := by
  intro cands
  induction cands with
  | nil => intro li; exact Or.inl ⟨rfl, by intro c hc; exact absurd hc (by simp)⟩
  | cons c cs ih =>
    intro li
    have hstep : minFold li (c :: cs) = minFold (if c < li then c else li) cs := rfl
    rw [hstep]
    by_cases hlt : c < li
    · rw [if_pos hlt]
      rcases ih c with ⟨h1, h2⟩ | h
      · exact Or.inr (by rw [h1]; exact List.mem_cons_self _ _)
      · exact Or.inr (List.mem_cons_of_mem _ h)
    · rw [if_neg hlt]
      rcases ih li with ⟨h1, h2⟩ | h
      · refine Or.inl ⟨h1, ?_⟩
        intro d hd
        rcases List.mem_cons.mp hd with hd | hd
        · omega
        · exact h2 d hd
      · exact Or.inr (List.mem_cons_of_mem _ h)

/-- C6: under the caller's contract — every in-range candidate's score is
defined and positive (some schema has requests and the chosen retentions
have positive intervals), and every combination LCM is positive and below
`2^32` — `getLowestResFromSetMatching` returns: when some combination LCM
lies in `[min_interval, max_interval]`, the first-encountered in-range
candidate of maximal score (every in-range candidate scores no higher, and
every earlier one strictly lower); and when no combination LCM is in
range, the globally smallest LCM seen. -/
theorem c6_getLowestRes (cat : Catalogue) (rbr : ReqsByRet)
    (fromT ttl minI maxI : Nat) (set : List (List Nat))
    (hsc : ∀ c ∈ inRangeCands minI maxI (allCombinationsUint32 set),
      ∃ sc, scoreFor cat rbr fromT ttl c = some sc ∧ 0 < sc)
    (hpos : ∀ c ∈ (allCombinationsUint32 set).map lcmList, 0 < c ∧ c < pow32) :
    ∃ res, getLowestResFromSetMatching cat rbr fromT ttl minI maxI set = some res ∧
      (inRangeCands minI maxI (allCombinationsUint32 set) ≠ [] →
        ∃ l1 l2, inRangeCands minI maxI (allCombinationsUint32 set) = l1 ++ res :: l2 ∧
          (∀ c ∈ inRangeCands minI maxI (allCombinationsUint32 set),
            scoreOf cat rbr fromT ttl c ≤ scoreOf cat rbr fromT ttl res) ∧
          (∀ c ∈ l1, scoreOf cat rbr fromT ttl c < scoreOf cat rbr fromT ttl res)) ∧
      (inRangeCands minI maxI (allCombinationsUint32 set) = [] →
        ((allCombinationsUint32 set).map lcmList ≠ [] →
          res ∈ (allCombinationsUint32 set).map lcmList) ∧
        ∀ c ∈ (allCombinationsUint32 set).map lcmList, res ≤ c) := by
  have hscd : ∀ c ∈ inRangeCands minI maxI (allCombinationsUint32 set),
      scoreFor cat rbr fromT ttl c = some (scoreOf cat rbr fromT ttl c) := by
    intro c hc
    obtain ⟨sc, hsf, _⟩ := hsc c hc
    rw [hsf, scoreOf, hsf]
    rfl
  have heq := lowResLoop_eq_pickBest cat rbr fromT ttl minI maxI
    (allCombinationsUint32 set) 0 0 (pow32 - 1) hscd
  set f := scoreOf cat rbr fromT ttl with hf
  set ir := inRangeCands minI maxI (allCombinationsUint32 set) with hir
  set cands := (allCombinationsUint32 set).map lcmList with hcands
  have hp32 : pow32 = 4294967296 := rfl
  by_cases hirc : ir = []
  · refine ⟨minFold (pow32 - 1) cands, ?_, ?_, ?_⟩
    · rw [getLowestResFromSetMatching, heq, hirc]
      rfl
    · intro hne; exact absurd hirc hne
    · intro _
      obtain ⟨hle1, hle2⟩ := minFold_le cands (pow32 - 1)
      refine ⟨?_, hle2⟩
      intro hne
      rcases minFold_mem cands (pow32 - 1) with ⟨h1, h2⟩ | h
      · obtain ⟨c, hc⟩ := List.exists_mem_of_ne_nil cands hne
        have h3 := (hpos c hc).2
        have h4 := h2 c hc
        have h5 : c = pow32 - 1 := by omega
        rw [h1, ← h5]
        exact hc
      · exact h
  · obtain ⟨c0, hc0⟩ := List.exists_mem_of_ne_nil ir hirc
    have hc0pos : 0 < f c0 := by
      obtain ⟨sc, hsf, hscpos⟩ := hsc c0 hc0
      have : f c0 = sc := by rw [hf, scoreOf, hsf]; rfl
      omega
    obtain ⟨hms, hall⟩ := pickBest_fst f ir 0 0
    have himp : 0 < (pickBest f 0 0 ir).1 := by
      have := hall c0 hc0
      omega
    obtain ⟨l1, l2, hsplit, hfe, hlt⟩ := pickBest_improved f ir 0 0 himp
    have hresmem : (pickBest f 0 0 ir).2 ∈ ir := by
      have hmem : (pickBest f 0 0 ir).2 ∈ l1 ++ (pickBest f 0 0 ir).2 :: l2 :=
        List.mem_append_right _ (List.mem_cons_self _ _)
      rw [← hsplit] at hmem
      exact hmem
    have hresne : (pickBest f 0 0 ir).2 ≠ 0 := by
      have hmc : (pickBest f 0 0 ir).2 ∈ cands := by
        have hfil := List.mem_filter.mp (by rw [hir, inRangeCands] at hresmem; exact hresmem)
        rw [hcands]
        exact hfil.1
      have := (hpos _ hmc).1
      omega
    refine ⟨(pickBest f 0 0 ir).2, ?_, ?_, ?_⟩
    · rw [getLowestResFromSetMatching, heq, if_neg hresne]
    · intro _
      refine ⟨l1, l2, hsplit, ?_, ?_⟩
      · intro c hc
        have h1 := hall c hc
        have := hfe
        omega
      · intro c hc
        have h1 := hlt c hc
        have := hfe
        omega
    · intro hnil
      exact absurd hnil hirc

/-- C6 witness: the characterisation applied to spec scenario 4.  The
in-range candidates are `[10, 240, 300]` with scores `[20, 250, 310]`, so
the returned interval is 300. -/
theorem c6_getLowestRes_witness :
    ∃ res, getLowestResFromSetMatching s4cat [[s4req], [s4req]] 1000000 172800
        0 432 [[10, 300], [10, 240]] = some res ∧
      (inRangeCands 0 432 (allCombinationsUint32 [[10, 300], [10, 240]]) ≠ [] →
        ∃ l1 l2, inRangeCands 0 432 (allCombinationsUint32 [[10, 300], [10, 240]]) =
            l1 ++ res :: l2 ∧
          (∀ c ∈ inRangeCands 0 432 (allCombinationsUint32 [[10, 300], [10, 240]]),
            scoreOf s4cat [[s4req], [s4req]] 1000000 172800 c ≤
              scoreOf s4cat [[s4req], [s4req]] 1000000 172800 res) ∧
          (∀ c ∈ l1, scoreOf s4cat [[s4req], [s4req]] 1000000 172800 c <
            scoreOf s4cat [[s4req], [s4req]] 1000000 172800 res)) ∧
      (inRangeCands 0 432 (allCombinationsUint32 [[10, 300], [10, 240]]) = [] →
        ((allCombinationsUint32 [[10, 300], [10, 240]]).map lcmList ≠ [] →
          res ∈ (allCombinationsUint32 [[10, 300], [10, 240]]).map lcmList) ∧
        ∀ c ∈ (allCombinationsUint32 [[10, 300], [10, 240]]).map lcmList, res ≤ c) := by
  refine c6_getLowestRes s4cat [[s4req], [s4req]] 1000000 172800 0 432
    [[10, 300], [10, 240]] ?_ (by decide)
  intro c hc
  have hlist : inRangeCands 0 432 (allCombinationsUint32 [[10, 300], [10, 240]]) =
      [10, 240, 300] := by decide
  rw [hlist] at hc
  simp only [List.mem_cons, List.not_mem_nil, or_false] at hc
  rcases hc with hc | hc | hc
  · subst hc; exact ⟨20, by decide, by decide⟩
  · subst hc; exact ⟨250, by decide, by decide⟩
  · subst hc; exact ⟨310, by decide, by decide⟩

/-! ### Readiness and uniformity invariants of the full planner -/

/-- The request's chosen archive exists in its schema's retention list and
is ready for `from`. -/
def ReqReady (cat : Catalogue) (fromT sid : Nat) (r : Req) : Prop :=
  ∃ ret, (cat sid).get? r.archive = some ret ∧ ret.ready ≤ fromT

/-- Every request of every bucket (positionally keyed by schema id) has a
ready chosen archive. -/
def RbrReady (cat : Catalogue) (fromT : Nat) (rbr : ReqsByRet) : Prop :=
  ∀ sid r, r ∈ rbr.getD sid [] → ReqReady cat fromT sid r

/-- Readiness over both halves of a split. -/
def SplitReady (cat : Catalogue) (fromT : Nat) (s : SplitReq) : Prop :=
  RbrReady cat fromT s.mdpyes ∧ RbrReady cat fromT s.mdpno

/-- Readiness over a whole partitioned plan. -/
def PlanReady (cat : Catalogue) (fromT : Nat) (rp : ReqsPlan) : Prop :=
  (∀ g s, (g, s) ∈ rp.pngroups → SplitReady cat fromT s) ∧
    SplitReady cat fromT rp.single

/-- All requests of a PN-group half share one output interval. -/
def RbrUniform (rbr : ReqsByRet) : Prop :=
  ∀ r ∈ rbr.flatten, ∀ r' ∈ rbr.flatten, r.outInterval = r'.outInterval

/-- Per-half uniformity over all PN-groups of a plan. -/
def PlanGroupsUniform (rp : ReqsPlan) : Prop :=
  ∀ g s, (g, s) ∈ rp.pngroups → RbrUniform s.mdpyes ∧ RbrUniform s.mdpno

/-- Planning a request records exactly the archive index it was planned
against. -/
theorem Req.plan_archive (r : Req) (i : Nat) (ret : Retention) :
    (r.plan i ret).archive = i := rfl

/-- Adjusting to a common interval never changes the archive. -/
theorem Req.adjustTo_archive (r : Req) (interval : Nat) :
    (r.adjustTo interval).archive = r.archive := by
  rw [Req.adjustTo]
  split <;> rfl

/-- A bucket map without data has only empty buckets. -/
theorem hasData_false_getD {rbr : ReqsByRet} (h : rbr.hasData = false) :
    ∀ sid, rbr.getD sid [] = [] := by
  intro sid
  induction rbr generalizing sid with
  | nil => cases sid <;> rfl
  | cons b rest ih =>
    rw [ReqsByRet.hasData, List.any_cons] at h
    obtain ⟨h1, h2⟩ := Bool.or_eq_false_iff.mp h
    have hb : b.isEmpty = true := by simpa using h1
    cases sid with
    | zero => simpa [List.getD] using List.isEmpty_iff.mp hb
    | succ sid => simpa [List.getD] using ih h2 sid

/-- A bucket map without data flattens to nothing. -/
theorem hasData_false_flatten {rbr : ReqsByRet} (h : rbr.hasData = false) :
    rbr.flatten = [] := by
  induction rbr with
  | nil => rfl
  | cons b rest ih =>
    rw [ReqsByRet.hasData, List.any_cons] at h
    obtain ⟨h1, h2⟩ := Bool.or_eq_false_iff.mp h
    have hb : b.isEmpty = true := by simpa using h1
    rw [List.flatten_cons, List.isEmpty_iff.mp hb, ih h2, List.nil_append]

/-- Mapping over every bucket commutes with positional lookup. -/
theorem getD_map_buckets (g : Req → Req) :
    ∀ (l : List (List Req)) (k : Nat),
      (l.map (fun reqs => reqs.map g)).getD k [] = (l.getD k []).map g := by
  intro l
  induction l with
  | nil => intro k; cases k <;> rfl
  | cons b rest ih =>
    intro k
    cases k with
    | zero => rfl
    | succ k => simpa [List.getD] using ih k

/-- Positional lookup after a positional update. -/
theorem getD_set_cases :
    ∀ (l : List (List Req)) (i : Nat) (x : List Req) (k : Nat) (r : Req),
      r ∈ (l.set i x).getD k [] → r ∈ l.getD k [] ∨ (k = i ∧ r ∈ x) := by
  intro l
  induction l with
  | nil => intro i x k r h; rw [List.set_nil] at h; exact Or.inl h
  | cons b rest ih =>
    intro i x k r h
    cases i with
    | zero =>
      cases k with
      | zero => exact Or.inr ⟨rfl, by simpa [List.getD] using h⟩
      | succ k => exact Or.inl (by simpa [List.getD, List.set_cons_zero] using h)
    | succ i =>
      cases k with
      | zero => exact Or.inl (by simpa [List.getD, List.set_cons_succ] using h)
      | succ k =>
        rcases ih i x k r (by simpa [List.getD, List.set_cons_succ] using h) with h1 | h2
        · exact Or.inl (by simpa [List.getD] using h1)
        · exact Or.inr ⟨by omega, h2.2⟩

/-- A successful `findHighRec` returns an entry of the list that is ready
(it skips every non-ready retention). -/
theorem findHighRec_ready {fromT ttl : Nat} :
    ∀ (rets : List Retention) (idx i : Nat) (ret : Retention),
      findHighRec fromT ttl rets idx = some (i, ret) →
      ∃ k, i = idx + k ∧ rets.get? k = some ret ∧ ret.ready ≤ fromT := by
  intro rets
  induction rets with
  | nil => intro idx i ret h; exact absurd h (by simp [findHighRec])
  | cons r0 rest ih =>
    intro idx i ret h
    rw [findHighRec] at h
    by_cases hready : fromT < r0.ready
    · rw [if_pos hready] at h
      obtain ⟨k, hk1, hk2, hk3⟩ := ih (idx + 1) i ret h
      exact ⟨k + 1, by omega, by simpa [List.get?] using hk2, hk3⟩
    · rw [if_neg hready] at h
      by_cases httl : ttl ≤ r0.maxRetention
      · rw [if_pos httl] at h
        obtain ⟨h1, h2⟩ : idx = i ∧ r0 = ret := by
          constructor <;> [exact congrArg Prod.fst (Option.some.inj h);
                          exact congrArg Prod.snd (Option.some.inj h)]
        exact ⟨0, by omega, by simp [List.get?, h2], by rw [← h2]; omega⟩
      · rw [if_neg httl] at h
        cases hrec : findHighRec fromT ttl rest (idx + 1) with
        | some pr =>
          rw [hrec] at h
          obtain ⟨k, hk1, hk2, hk3⟩ := ih (idx + 1) i ret (by rw [hrec, ← h])
          exact ⟨k + 1, by omega, by simpa [List.get?] using hk2, hk3⟩
        | none =>
          rw [hrec] at h
          obtain ⟨h1, h2⟩ : idx = i ∧ r0 = ret := by
            constructor <;> [exact congrArg Prod.fst (Option.some.inj h);
                            exact congrArg Prod.snd (Option.some.inj h)]
          exact ⟨0, by omega, by simp [List.get?, h2], by rw [← h2]; omega⟩

/-- A successful `redSinglesFind` returns a valid (hence ready) entry. -/
theorem redSinglesFind_sound {fromT ttl curOut : Nat} :
    ∀ (rets : List Retention) (idx i : Nat) (ret : Retention),
      redSinglesFind fromT ttl curOut rets idx = some (i, ret) →
      ∃ k, i = idx + k ∧ rets.get? k = some ret ∧ ret.Valid fromT ttl ∧
        curOut < ret.secondsPerPoint := by
  intro rets
  induction rets with
  | nil => intro idx i ret h; exact absurd h (by simp [redSinglesFind])
  | cons r0 rest ih =>
    intro idx i ret h
    rw [redSinglesFind] at h
    by_cases hcond : r0.Valid fromT ttl ∧ curOut < r0.secondsPerPoint
    · rw [if_pos hcond] at h
      obtain ⟨h1, h2⟩ : idx = i ∧ r0 = ret := by
        constructor <;> [exact congrArg Prod.fst (Option.some.inj h);
                        exact congrArg Prod.snd (Option.some.inj h)]
      exact ⟨0, by omega, by simp [List.get?, h2], by rw [← h2]; exact hcond.1,
        by rw [← h2]; exact hcond.2⟩
    · rw [if_neg hcond] at h
      obtain ⟨k, hk1, hk2, hk3⟩ := ih (idx + 1) i ret h
      exact ⟨k + 1, by omega, by simpa [List.get?] using hk2, hk3⟩

/-- The request planned inside a `planToMulti` bucket keeps archive `i`. -/
theorem planToMulti_req_archive (r0 : Req) (i : Nat) (ret : Retention) (interval : Nat) :
    (let r' := r0.plan i ret
     if interval ≠ r'.archInterval then r'.planNormalization interval else r').archive = i := by
  simp only
  split <;> rfl

/-- The request planned inside a `planToMulti` bucket emits at the common
interval. -/
theorem planToMulti_req_out (r0 : Req) (i : Nat) (ret : Retention) (interval : Nat) :
    (let r' := r0.plan i ret
     if interval ≠ r'.archInterval then r'.planNormalization interval else r').outInterval =
      interval := by
  simp only
  split
  · rfl
  · rename_i hne
    push_neg at hne
    exact hne.symm

/-- `planHighestResSingles` only chooses ready archives. -/
theorem planHighestResSingles_ready {cat : Catalogue} {now fromT toT sid : Nat}
    {reqs out : List Req}
    (h : planHighestResSingles cat now fromT toT sid reqs = some out) :
    ∀ r ∈ out, ReqReady cat fromT sid r := by
  rw [planHighestResSingles] at h
  split at h
  · exact absurd h (by simp)
  · rename_i pr hf
    obtain ⟨i, ret⟩ := pr
    obtain ⟨k, hk1, hk2, hk3⟩ := findHighRec_ready (cat sid) 0 i ret hf
    intro r hr
    rw [← Option.some.inj h] at hr
    obtain ⟨r0, _, hre⟩ := List.mem_map.mp hr
    rw [← hre]
    refine ⟨ret, ?_, hk3⟩
    rw [Req.plan_archive, hk1]
    simpa using hk2

/-- `planLowestResForMDPSingles` only chooses ready archives. -/
theorem planLowestResForMDPSingles_ready {cat : Catalogue}
    {now fromT toT mdp sid : Nat} {reqs out : List Req}
    (h : planLowestResForMDPSingles cat now fromT toT mdp sid reqs = some out) :
    ∀ r ∈ out, ReqReady cat fromT sid r := by
  cases reqs with
  | nil =>
    rw [planLowestResForMDPSingles] at h
    rw [← Option.some.inj h]
    intro r hr
    exact absurd hr (by simp)
  | cons r0 rest =>
    cases hgo : mdpGo (cat sid) fromT mdp r0 (cat sid).length none with
    | none => rw [planMDPSingles_go_none hgo] at h; exact absurd h (by simp)
    | some pr =>
      obtain ⟨i, ret⟩ := pr
      rw [planMDPSingles_go_some hgo] at h
      have hc := mdpGo_char (cat sid) fromT mdp r0 (cat sid).length none
        (by intro k rk hk; exact absurd hk (by simp)) i ret hgo
      intro r hr
      rw [← Option.some.inj h] at hr
      obtain ⟨r1, _, hre⟩ := List.mem_map.mp hr
      rw [← hre]
      refine ⟨ret, ?_, hc.2.1⟩
      rw [Req.plan_archive]
      exact hc.1

/-- Every bucket planned by `planToMultiRec` has a ready (indeed valid)
chosen archive. -/
theorem planToMultiRec_ready {cat : Catalogue} {fromT ttl interval : Nat} :
    ∀ (L : List (List Req)) (sid0 : Nat) (out : List (List Req)),
      planToMultiRec cat fromT ttl interval L sid0 = some out →
      ∀ k r, r ∈ out.getD k [] → ReqReady cat fromT (sid0 + k) r := by
  intro L
  induction L with
  | nil =>
    intro sid0 out h k r hr
    rw [planToMultiRec] at h
    rw [← Option.some.inj h] at hr
    cases k <;> exact absurd hr (by simp [List.getD])
  | cons reqs rest ih =>
    intro sid0 out h k r hr
    rw [planToMultiRec] at h
    by_cases hemp : reqs.isEmpty
    · rw [if_pos hemp] at h
      split at h
      · exact absurd h (by simp)
      · rename_i out' hrec
        have hcons : reqs :: out' = out := by simpa using h
        rw [← hcons] at hr
        cases k with
        | zero =>
          rw [List.isEmpty_iff.mp hemp] at hr
          exact absurd hr (by simp [List.getD])
        | succ k =>
          have h2 := ih (sid0 + 1) out' hrec k r (by simpa [List.getD] using hr)
          have he : sid0 + 1 + k = sid0 + (k + 1) := by omega
          rwa [he] at h2
    · rw [if_neg hemp] at h
      split at h
      · exact absurd h (by simp)
      · rename_i pr hf
        split at h
        · exact absurd h (by simp)
        · rename_i out' hrec
          obtain ⟨i, ret⟩ := pr
          have hcons := Option.some.inj h
          rw [← hcons] at hr
          cases k with
          | zero =>
            simp only [List.getD, List.getElem?_cons_zero, Option.getD_some] at hr
            obtain ⟨r0, _, hre⟩ := List.mem_map.mp hr
            obtain ⟨kk, hk1, hk2, hsat⟩ := findLowRec_some (cat sid0) 0 i ret hf
            rw [← hre]
            refine ⟨ret, ?_, hsat.1.1⟩
            rw [planToMulti_req_archive, hk1]
            simpa using hk2
          | succ k =>
            have h2 := ih (sid0 + 1) out' hrec k r (by simpa [List.getD] using hr)
            have he : sid0 + 1 + k = sid0 + (k + 1) := by omega
            rwa [he] at h2

/-- `planToMulti` yields ready archives everywhere. -/
theorem planToMulti_ready {cat : Catalogue} {now fromT toT interval : Nat}
    {rbr out : ReqsByRet}
    (h : planToMulti cat now fromT toT interval rbr = some out) :
    RbrReady cat fromT out := by
  intro sid r hr
  have h2 := planToMultiRec_ready rbr 0 out h sid r hr
  simpa using h2

/-- Every bucket planned by `phmRec` has a ready chosen archive. -/
theorem phmRec_ready {cat : Catalogue} {fromT ttl : Nat} :
    ∀ (L : List (List Req)) (sid0 : Nat) (out : List (List Req)),
      phmRec cat fromT ttl L sid0 = some out →
      ∀ k r, r ∈ out.getD k [] → ReqReady cat fromT (sid0 + k) r := by
  intro L
  induction L with
  | nil =>
    intro sid0 out h k r hr
    rw [phmRec] at h
    rw [← Option.some.inj h] at hr
    cases k <;> exact absurd hr (by simp [List.getD])
  | cons reqs rest ih =>
    intro sid0 out h k r hr
    rw [phmRec] at h
    by_cases hemp : reqs.isEmpty
    · rw [if_pos hemp] at h
      split at h
      · exact absurd h (by simp)
      · rename_i out' hrec
        have hcons : reqs :: out' = out := by simpa using h
        rw [← hcons] at hr
        cases k with
        | zero =>
          rw [List.isEmpty_iff.mp hemp] at hr
          exact absurd hr (by simp [List.getD])
        | succ k =>
          have h2 := ih (sid0 + 1) out' hrec k r (by simpa [List.getD] using hr)
          have he : sid0 + 1 + k = sid0 + (k + 1) := by omega
          rwa [he] at h2
    · rw [if_neg hemp] at h
      split at h
      · exact absurd h (by simp)
      · rename_i pr hf
        split at h
        · exact absurd h (by simp)
        · rename_i out' hrec
          obtain ⟨i, ret⟩ := pr
          have hcons := Option.some.inj h
          rw [← hcons] at hr
          cases k with
          | zero =>
            simp only [List.getD, List.getElem?_cons_zero, Option.getD_some] at hr
            obtain ⟨r0, _, hre⟩ := List.mem_map.mp hr
            obtain ⟨kk, hk1, hk2, hk3⟩ := findHighRec_ready (cat sid0) 0 i ret hf
            rw [← hre]
            refine ⟨ret, ?_, hk3⟩
            rw [Req.plan_archive, hk1]
            simpa using hk2
          | succ k =>
            have h2 := ih (sid0 + 1) out' hrec k r (by simpa [List.getD] using hr)
            have he : sid0 + 1 + k = sid0 + (k + 1) := by omega
            rwa [he] at h2

/-- `planHighestResMulti` yields ready archives everywhere. -/
theorem planHighestResMulti_ready {cat : Catalogue} {now fromT toT : Nat}
    {rbr out : ReqsByRet}
    (h : planHighestResMulti cat now fromT toT rbr = some out) :
    RbrReady cat fromT out := by
  rw [planHighestResMulti] at h
  split at h
  · exact absurd h (by simp)
  · rename_i rbr1 hphm
    have hout : rbr1.map (fun reqs => reqs.map
        (fun r => r.adjustTo (lcmList (collectIntervals rbr1)))) = out := by
      simpa using h
    intro sid r hr
    rw [← hout, getD_map_buckets] at hr
    obtain ⟨r0, hr0, hre⟩ := List.mem_map.mp hr
    obtain ⟨ret, hret, hready⟩ := by
      have h2 := phmRec_ready rbr 0 rbr1 hphm sid r0 hr0
      simpa using h2
    exact ⟨ret, by rw [← hre, Req.adjustTo_archive]; exact hret, hready⟩

/-- `planLowestResForMDPMulti` yields ready archives everywhere. -/
theorem planLowestResForMDPMulti_ready {cat : Catalogue}
    {now fromT toT mdp : Nat} {rbr out : ReqsByRet}
    (h : planLowestResForMDPMulti cat now fromT toT mdp rbr = .ok out) :
    RbrReady cat fromT out := by
  rw [planMDPMulti_unfold] at h
  split at h
  · exact absurd h (by simp)
  · split at h
    · exact absurd h (by simp)
    · split at h
      · exact absurd h (by simp)
      · rename_i rbr2 hptm
        have hout : rbr2 = out := by simpa using h
        rw [← hout]
        exact planToMulti_ready hptm

/-- `reduceResSingles` yields ready archives. -/
theorem reduceResSingles_ready {cat : Catalogue} {now fromT toT sid : Nat}
    {reqs out : List Req}
    (h : reduceResSingles cat now fromT toT sid reqs = some out) :
    ∀ r ∈ out, ReqReady cat fromT sid r := by
  cases reqs with
  | nil =>
    rw [reduceResSingles] at h
    rw [← Option.some.inj h]
    intro r hr
    exact absurd hr (by simp)
  | cons r0 rest =>
    rw [reduceResSingles] at h
    split at h
    · exact absurd h (by simp)
    · rename_i pr hf
      obtain ⟨i, ret⟩ := pr
      obtain ⟨k, hk1, hk2, hk3, _⟩ := redSinglesFind_sound (cat sid) 0 i ret hf
      intro r hr
      rw [← Option.some.inj h] at hr
      obtain ⟨r1, _, hre⟩ := List.mem_map.mp hr
      rw [← hre]
      refine ⟨ret, ?_, hk3.1⟩
      rw [Req.plan_archive, hk1]
      simpa using hk2

/-- `reduceResMulti` written as a chain of matches. -/
theorem reduceResMulti_unfold (cat : Catalogue) (now fromT toT : Nat)
    (rbr : ReqsByRet) :
    reduceResMulti cat now fromT toT rbr =
      match getValidIntervalsSet cat rbr fromT (sub32 now fromT) with
      | none => .noProgress
      | some set =>
        if getHighestResFromSetMatching fromT (sub32 now fromT)
            (ReqsByRet.outIntervalOf rbr + 1) (pow32 - 1) set = 0 then .noProgress
        else
          match planToMulti cat now fromT toT
              (getHighestResFromSetMatching fromT (sub32 now fromT)
                (ReqsByRet.outIntervalOf rbr + 1) (pow32 - 1) set) rbr with
          | none => .panicked
          | some rbr' => .reduced rbr' := rfl

/-- A successful `reduceResMulti` yields ready archives everywhere. -/
theorem reduceResMulti_ready {cat : Catalogue} {now fromT toT : Nat}
    {rbr out : ReqsByRet}
    (h : reduceResMulti cat now fromT toT rbr = .reduced out) :
    RbrReady cat fromT out := by
  rw [reduceResMulti_unfold] at h
  split at h
  · exact absurd h (by simp)
  · split at h
    · exact absurd h (by simp)
    · split at h
      · exact absurd h (by simp)
      · rename_i rbr2 hptm
        have hout : rbr2 = out := by injection h
        rw [← hout]
        exact planToMulti_ready hptm

/-- Membership after replacing a group's `mdpno` half: the entry is
untouched or is the targeted group with its `mdpno` replaced. -/
theorem setGroupNo_mem :
    ∀ (l : List (Nat × SplitReq)) (gid : Nat) (rbr : ReqsByRet) (g : Nat) (s : SplitReq),
      (g, s) ∈ setGroupNo l gid rbr →
      (g, s) ∈ l ∨ ∃ s0, (g, s0) ∈ l ∧ s = { s0 with mdpno := rbr } := by
  intro l
  induction l with
  | nil => intro gid rbr g s hm; exact absurd hm (by simp [setGroupNo])
  | cons p rest ih =>
    obtain ⟨g0, s0⟩ := p
    intro gid rbr g s hm
    rw [setGroupNo] at hm
    by_cases hg : g0 = gid
    · rw [if_pos hg] at hm
      rcases List.mem_cons.mp hm with hm | hm
      · obtain ⟨h1, h2⟩ := Prod.mk.inj hm
        exact Or.inr ⟨s0, by rw [h1]; exact List.mem_cons_self _ _, h2⟩
      · exact Or.inl (List.mem_cons_of_mem _ hm)
    · rw [if_neg hg] at hm
      rcases List.mem_cons.mp hm with hm | hm
      · exact Or.inl (by rw [hm]; exact List.mem_cons_self _ _)
      · rcases ih gid rbr g s hm with h1 | ⟨s1, h2, h3⟩
        · exact Or.inl (List.mem_cons_of_mem _ h1)
        · exact Or.inr ⟨s1, List.mem_cons_of_mem _ h2, h3⟩

/-- Phase 1 on the PN-groups yields ready archives in every group. -/
theorem planGroupsRec_ready {cat : Catalogue} {now fromT toT mdp : Nat} :
    ∀ (L out : List (Nat × SplitReq)),
      planGroupsRec cat now fromT toT mdp L = .ok out →
      ∀ g s, (g, s) ∈ out → SplitReady cat fromT s := by
  intro L
  induction L with
  | nil =>
    intro out h g s hm
    rw [planGroupsRec] at h
    have hnil : ([] : List (Nat × SplitReq)) = out := by simpa using h
    rw [← hnil] at hm
    exact absurd hm (by simp)
  | cons p rest ih =>
    obtain ⟨gid, sp⟩ := p
    intro out h g s hm
    rw [planGroupsRec.eq_def] at h
    dsimp only at h
    have hyes : ∀ yes', (if ReqsByRet.hasData sp.mdpyes then
        planLowestResForMDPMulti cat now fromT toT mdp sp.mdpyes
        else .ok sp.mdpyes) = .ok yes' → RbrReady cat fromT yes' := by
      intro yes' hy
      by_cases hyd : ReqsByRet.hasData sp.mdpyes
      · rw [if_pos hyd] at hy
        exact planLowestResForMDPMulti_ready hy
      · rw [if_neg hyd] at hy
        have hid : sp.mdpyes = yes' := by simpa using hy
        rw [← hid]
        intro sid r hr
        rw [hasData_false_getD (by simpa using hyd) sid] at hr
        exact absurd hr (by simp)
    have hno : ∀ no', (if ReqsByRet.hasData sp.mdpno then
        planHighestResMulti cat now fromT toT sp.mdpno
        else some sp.mdpno) = some no' → RbrReady cat fromT no' := by
      intro no' hn
      by_cases hnd : ReqsByRet.hasData sp.mdpno
      · rw [if_pos hnd] at hn
        exact planHighestResMulti_ready hn
      · rw [if_neg hnd] at hn
        have hid : sp.mdpno = no' := by simpa using hn
        rw [← hid]
        intro sid r hr
        rw [hasData_false_getD (by simpa using hnd) sid] at hr
        exact absurd hr (by simp)
    split at h
    · exact absurd h (by simp)
    · exact absurd h (by simp)
    · rename_i yes' hy
      split at h
      · exact absurd h (by simp)
      · rename_i no' hn
        split at h
        · exact absurd h (by simp)
        · rename_i rest' hrest
          have hcons : (gid, (⟨yes', no'⟩ : SplitReq)) :: rest' = out := by simpa using h
          rw [← hcons] at hm
          rcases List.mem_cons.mp hm with hm | hm
          · obtain ⟨_, h2⟩ := Prod.mk.inj hm
            rw [h2]
            exact ⟨hyes yes' hy, hno no' hn⟩
          · exact ih rest' hrest g s hm

/-- Phase 1 on the MDP-yes singles yields ready archives. -/
theorem planYesSinglesRec_ready {cat : Catalogue} {now fromT toT mdp : Nat} :
    ∀ (L : List (List Req)) (sid0 : Nat) (out : List (List Req)),
      planYesSinglesRec cat now fromT toT mdp L sid0 = .ok out →
      ∀ k r, r ∈ out.getD k [] → ReqReady cat fromT (sid0 + k) r := by
  intro L
  induction L with
  | nil =>
    intro sid0 out h k r hr
    rw [planYesSinglesRec] at h
    have hnil : ([] : List (List Req)) = out := by simpa using h
    rw [← hnil] at hr
    cases k <;> exact absurd hr (by simp [List.getD])
  | cons reqs rest ih =>
    intro sid0 out h k r hr
    rw [planYesSinglesRec] at h
    by_cases hemp : reqs.isEmpty
    · rw [if_pos hemp] at h
      split at h
      · exact absurd h (by simp)
      · rename_i out' hrec
        have hcons := by simpa using h
        rw [← (hcons : reqs :: out' = out)] at hr
        cases k with
        | zero =>
          rw [List.isEmpty_iff.mp hemp] at hr
          exact absurd hr (by simp [List.getD])
        | succ k =>
          have h2 := ih (sid0 + 1) out' hrec k r (by simpa [List.getD] using hr)
          have he : sid0 + 1 + k = sid0 + (k + 1) := by omega
          rwa [he] at h2
    · rw [if_neg hemp] at h
      split at h
      · exact absurd h (by simp)
      · rename_i reqs' hp
        split at h
        · exact absurd h (by simp)
        · rename_i out' hrec
          have hcons := by simpa using h
          rw [← (hcons : reqs' :: out' = out)] at hr
          cases k with
          | zero =>
            simp only [List.getD, List.getElem?_cons_zero, Option.getD_some] at hr
            exact planLowestResForMDPSingles_ready hp r hr
          | succ k =>
            have h2 := ih (sid0 + 1) out' hrec k r (by simpa [List.getD] using hr)
            have he : sid0 + 1 + k = sid0 + (k + 1) := by omega
            rwa [he] at h2

/-- Phase 1 on the MDP-no singles yields ready archives. -/
theorem planNoSinglesRec_ready {cat : Catalogue} {now fromT toT : Nat} :
    ∀ (L : List (List Req)) (sid0 : Nat) (out : List (List Req)),
      planNoSinglesRec cat now fromT toT L sid0 = .ok out →
      ∀ k r, r ∈ out.getD k [] → ReqReady cat fromT (sid0 + k) r := by
  intro L
  induction L with
  | nil =>
    intro sid0 out h k r hr
    rw [planNoSinglesRec] at h
    have hnil : ([] : List (List Req)) = out := by simpa using h
    rw [← hnil] at hr
    cases k <;> exact absurd hr (by simp [List.getD])
  | cons reqs rest ih =>
    intro sid0 out h k r hr
    rw [planNoSinglesRec] at h
    by_cases hemp : reqs.isEmpty
    · rw [if_pos hemp] at h
      split at h
      · exact absurd h (by simp)
      · rename_i out' hrec
        have hcons := by simpa using h
        rw [← (hcons : reqs :: out' = out)] at hr
        cases k with
        | zero =>
          rw [List.isEmpty_iff.mp hemp] at hr
          exact absurd hr (by simp [List.getD])
        | succ k =>
          have h2 := ih (sid0 + 1) out' hrec k r (by simpa [List.getD] using hr)
          have he : sid0 + 1 + k = sid0 + (k + 1) := by omega
          rwa [he] at h2
    · rw [if_neg hemp] at h
      split at h
      · exact absurd h (by simp)
      · rename_i reqs' hp
        split at h
        · exact absurd h (by simp)
        · rename_i out' hrec
          have hcons := by simpa using h
          rw [← (hcons : reqs' :: out' = out)] at hr
          cases k with
          | zero =>
            simp only [List.getD, List.getElem?_cons_zero, Option.getD_some] at hr
            exact planHighestResSingles_ready hp r hr
          | succ k =>
            have h2 := ih (sid0 + 1) out' hrec k r (by simpa [List.getD] using hr)
            have he : sid0 + 1 + k = sid0 + (k + 1) := by omega
            rwa [he] at h2

/-- Phase 1 establishes the readiness invariant on the whole plan. -/
theorem planInitial_ready {cat : Catalogue} {now fromT toT mdp : Nat}
    {rp0 rp1 : ReqsPlan}
    (h : planInitial cat now fromT toT mdp rp0 = .ok rp1) :
    PlanReady cat fromT rp1 := by
  rw [planInitial] at h
  split at h
  · exact absurd h (by simp)
  · rename_i groups' hg
    split at h
    · exact absurd h (by simp)
    · rename_i yes' hy
      split at h
      · exact absurd h (by simp)
      · rename_i no' hn
        have hrp : (⟨groups', ⟨yes', no'⟩⟩ : ReqsPlan) = rp1 := by simpa using h
        rw [← hrp]
        refine ⟨?_, ?_, ?_⟩
        · intro g s hm
          exact planGroupsRec_ready rp0.pngroups groups' hg g s hm
        · intro sid r hr
          have h2 := planYesSinglesRec_ready rp0.single.mdpyes 0 yes' hy sid r hr
          simpa using h2
        · intro sid r hr
          have h2 := planNoSinglesRec_ready rp0.single.mdpno 0 no' hn sid r hr
          simpa using h2

/-- Replacing a group's `mdpno` half with a freshly reduced one preserves
readiness of the whole plan. -/
theorem setGroupNo_ready {cat : Catalogue} {now fromT toT : Nat} {rp : ReqsPlan}
    {gid : Nat} {src rbr2 : ReqsByRet}
    (hinv : PlanReady cat fromT rp)
    (hred : reduceResMulti cat now fromT toT src = .reduced rbr2) :
    PlanReady cat fromT { rp with pngroups := setGroupNo rp.pngroups gid rbr2 } := by
  refine ⟨?_, hinv.2⟩
  intro g s hm
  rcases setGroupNo_mem rp.pngroups gid rbr2 g s hm with h1 | ⟨s0, h2, h3⟩
  · exact hinv.1 g s h1
  · refine ⟨?_, ?_⟩
    · rw [h3]
      exact (hinv.1 g s0 h2).1
    · rw [h3]
      exact reduceResMulti_ready hred

/-- The PN-group portion of a soft pass preserves readiness. -/
theorem softGroupsPass_ready {cat : Catalogue} {now fromT toT : Nat} {soft : Int} :
    ∀ (order : List Nat) (rp : ReqsPlan) (progress : Bool)
      (res : Bool × Bool × ReqsPlan),
      PlanReady cat fromT rp →
      softGroupsPass cat now fromT toT soft order rp progress = .ok res →
      PlanReady cat fromT res.2.2 := by
  intro order
  induction order with
  | nil =>
    intro rp progress res hinv h
    rw [softGroupsPass] at h
    have hres : (progress, false, rp) = res := by simpa using h
    rw [← hres]
    exact hinv
  | cons gid rest ih =>
    intro rp progress res hinv h
    rw [softGroupsPass] at h
    split at h
    · exact ih rp progress res hinv h
    · rename_i sp hlk
      by_cases hhd : ReqsByRet.hasData sp.mdpno
      · rw [if_pos hhd] at h
        split at h
        · exact absurd h (by simp)
        · exact ih rp progress res hinv h
        · rename_i rbr2 hred
          have hinv' : PlanReady cat fromT
              { rp with pngroups := setGroupNo rp.pngroups gid rbr2 } :=
            setGroupNo_ready hinv hred
          by_cases hle : (ReqsPlan.pointsFetch
              { rp with pngroups := setGroupNo rp.pngroups gid rbr2 } : Int) ≤ soft
          · rw [if_pos hle] at h
            have hres : (true, true,
                ({ rp with pngroups := setGroupNo rp.pngroups gid rbr2 } : ReqsPlan)) = res := by
              simpa using h
            rw [← hres]
            exact hinv'
          · rw [if_neg hle] at h
            exact ih _ true res hinv' h
      · rw [if_neg hhd] at h
        exact ih rp progress res hinv h

/-- The singles portion of a soft pass preserves readiness. -/
theorem softSinglesPass_ready {cat : Catalogue} {now fromT toT : Nat} {soft : Int} :
    ∀ (sids : List Nat) (rp : ReqsPlan) (progress : Bool)
      (res : Bool × Bool × ReqsPlan),
      PlanReady cat fromT rp →
      softSinglesPass cat now fromT toT soft sids rp progress = .ok res →
      PlanReady cat fromT res.2.2 := by
  intro sids
  induction sids with
  | nil =>
    intro rp progress res hinv h
    rw [softSinglesPass] at h
    have hres : (progress, false, rp) = res := by simpa using h
    rw [← hres]
    exact hinv
  | cons sid rest ih =>
    intro rp progress res hinv h
    rw [softSinglesPass] at h
    by_cases hemp : (rp.single.mdpno.getD sid []).isEmpty
    · rw [if_pos hemp] at h
      exact ih rp progress res hinv h
    · rw [if_neg hemp] at h
      split at h
      · exact ih rp progress res hinv h
      · rename_i reqs' hred
        have hinv' : PlanReady cat fromT (rp.setSingleNo sid reqs') := by
          refine ⟨?_, hinv.2.1, ?_⟩
          · intro g s hm
            exact hinv.1 g s hm
          · intro k r hr
            rcases getD_set_cases rp.single.mdpno sid reqs' k r hr with h1 | ⟨h2, h3⟩
            · exact hinv.2.2 k r h1
            · rw [h2]
              exact reduceResSingles_ready hred r h3
        by_cases hle : (ReqsPlan.pointsFetch (rp.setSingleNo sid reqs') : Int) ≤ soft
        · rw [if_pos hle] at h
          have hres : (true, true, rp.setSingleNo sid reqs') = res := by simpa using h
          rw [← hres]
          exact hinv'
        · rw [if_neg hle] at h
          exact ih _ true res hinv' h

/-- One whole soft pass preserves readiness. -/
theorem softPassOnce_ready {cat : Catalogue} {now fromT toT : Nat} {soft : Int}
    {order : List Nat} {rp : ReqsPlan} {res : Bool × Bool × ReqsPlan}
    (hinv : PlanReady cat fromT rp)
    (h : softPassOnce cat now fromT toT soft order rp = .ok res) :
    PlanReady cat fromT res.2.2 := by
  rw [softPassOnce] at h
  split at h
  · exact absurd h (by simp)
  · rename_i progress rp' hg
    have hres := by simpa using h
    rw [← (hres : (progress, true, rp') = res)]
    exact softGroupsPass_ready order rp false (progress, true, rp') hinv hg
  · rename_i progress rp' hg
    have hinv' : PlanReady cat fromT rp' :=
      softGroupsPass_ready order rp false (progress, false, rp') hinv hg
    exact softSinglesPass_ready _ rp' progress res hinv' h

/-- The soft-limit loop preserves readiness. -/
theorem softLoop_ready {cat : Catalogue} {now fromT toT : Nat} {soft : Int}
    {order : List Nat} :
    ∀ (fuel : Nat) (rp rp2 : ReqsPlan),
      PlanReady cat fromT rp →
      softLoop fuel cat now fromT toT soft order rp = .ok rp2 →
      PlanReady cat fromT rp2 := by
  intro fuel
  induction fuel with
  | zero => intro rp rp2 _ h; exact absurd h (by simp [softLoop])
  | succ fuel ih =>
    intro rp rp2 hinv h
    rw [softLoop] at h
    by_cases hc : soft < (rp.pointsFetch : Int)
    · rw [if_pos hc] at h
      split at h
      · exact absurd h (by simp)
      · rename_i progress early rp' hpass
        by_cases he : early = true
        · rw [if_pos he] at h
          have hres : rp' = rp2 := by simpa using h
          rw [← hres]
          exact softPassOnce_ready hinv hpass
        · rw [if_neg he] at h
          by_cases hp : progress = true
          · rw [if_pos hp] at h
            exact ih rp' rp2 (softPassOnce_ready hinv hpass) h
          · rw [if_neg hp] at h
            have hres : rp' = rp2 := by simpa using h
            rw [← hres]
            exact softPassOnce_ready hinv hpass
    · rw [if_neg hc] at h
      have hres : rp = rp2 := by simpa using h
      rw [← hres]
      exact hinv

/-- Phases 1-2 yield a plan satisfying the readiness invariant. -/
theorem planPhase12_ready {fuel : Nat} {cat : Catalogue}
    {now fromT toT mdp : Nat} {soft : Int} {rp0 rp2 : ReqsPlan}
    (h : planPhase12 fuel cat now fromT toT mdp soft rp0 = .ok rp2) :
    PlanReady cat fromT rp2 := by
  rw [planPhase12] at h
  split at h
  · exact absurd h (by simp)
  · rename_i rp1 hinit
    have hinv := planInitial_ready hinit
    by_cases hs : (0 : Int) < soft
    · rw [if_pos hs] at h
      exact softLoop_ready fuel rp1 rp2 hinv h
    · rw [if_neg hs] at h
      have hres : rp1 = rp2 := by simpa using h
      rw [← hres]
      exact hinv

/-- With no ready retention the highest-resolution scan fails. -/
theorem findHighRec_none_of_unready {fromT ttl : Nat} :
    ∀ (rets : List Retention) (idx : Nat),
      (∀ k rk, rets.get? k = some rk → fromT < rk.ready) →
      findHighRec fromT ttl rets idx = none := by
  intro rets
  induction rets with
  | nil => intro idx _; rfl
  | cons r0 rest ih =>
    intro idx hbad
    rw [findHighRec, if_pos (hbad 0 r0 (by simp [List.get?]))]
    exact ih (idx + 1) (fun k rk hk => hbad (k + 1) rk (by simpa [List.get?] using hk))

/-- With no ready retention the MDP scan fails. -/
theorem mdpGo_none_of_unready {rets : List Retention} {fromT mdp : Nat} {r0 : Req}
    (hbad : ∀ k rk, rets.get? k = some rk → fromT < rk.ready) :
    ∀ i, mdpGo rets fromT mdp r0 i none = none := by
  intro i
  induction i with
  | zero => rfl
  | succ i ih =>
    cases hg : rets.get? i with
    | none => rw [mdpGo_succ_none hg]; exact ih
    | some ret => rw [mdpGo_succ_some hg, if_pos (hbad i ret hg)]; exact ih

/-- The MDP-yes singles phase cannot succeed past a non-empty bucket whose
schema has no ready retention. -/
theorem planYesSinglesRec_fail {cat : Catalogue} {now fromT toT mdp : Nat} :
    ∀ (L : List (List Req)) (sid0 : Nat),
      (∃ k, L.getD k [] ≠ [] ∧
        ∀ j rj, (cat (sid0 + k)).get? j = some rj → fromT < rj.ready) →
      ∀ out, planYesSinglesRec cat now fromT toT mdp L sid0 ≠ .ok out := by
  intro L
  induction L with
  | nil =>
    rintro sid0 ⟨k, hk, _⟩ out h
    exact hk (by cases k <;> rfl)
  | cons reqs rest ih =>
    rintro sid0 ⟨k, hk, hbad⟩ out h
    rw [planYesSinglesRec] at h
    by_cases hemp : reqs.isEmpty
    · rw [if_pos hemp] at h
      split at h
      · exact absurd h (by simp)
      · rename_i out' hrec
        cases k with
        | zero => exact hk (by simpa [List.getD] using List.isEmpty_iff.mp hemp)
        | succ k =>
          have he : sid0 + (k + 1) = sid0 + 1 + k := by omega
          rw [he] at hbad
          exact ih (sid0 + 1) ⟨k, by simpa [List.getD] using hk, hbad⟩ out' hrec
    · rw [if_neg hemp] at h
      split at h
      · exact absurd h (by simp)
      · rename_i reqs' hp
        split at h
        · exact absurd h (by simp)
        · rename_i out' hrec
          cases k with
          | zero =>
            cases reqs with
            | nil => exact hemp rfl
            | cons r0 rs =>
              have hbad0 : ∀ j rj, (cat sid0).get? j = some rj → fromT < rj.ready := by
                simpa using hbad
              have hgo := @mdpGo_none_of_unready (cat sid0) fromT mdp r0 hbad0
                (cat sid0).length
              rw [planMDPSingles_go_none hgo] at hp
              exact absurd hp (by simp)
          | succ k =>
            have he : sid0 + (k + 1) = sid0 + 1 + k := by omega
            rw [he] at hbad
            exact ih (sid0 + 1) ⟨k, by simpa [List.getD] using hk, hbad⟩ out' hrec

/-- The MDP-no singles phase cannot succeed past a non-empty bucket whose
schema has no ready retention. -/
theorem planNoSinglesRec_fail {cat : Catalogue} {now fromT toT : Nat} :
    ∀ (L : List (List Req)) (sid0 : Nat),
      (∃ k, L.getD k [] ≠ [] ∧
        ∀ j rj, (cat (sid0 + k)).get? j = some rj → fromT < rj.ready) →
      ∀ out, planNoSinglesRec cat now fromT toT L sid0 ≠ .ok out := by
  intro L
  induction L with
  | nil =>
    rintro sid0 ⟨k, hk, _⟩ out h
    exact hk (by cases k <;> rfl)
  | cons reqs rest ih =>
    rintro sid0 ⟨k, hk, hbad⟩ out h
    rw [planNoSinglesRec] at h
    by_cases hemp : reqs.isEmpty
    · rw [if_pos hemp] at h
      split at h
      · exact absurd h (by simp)
      · rename_i out' hrec
        cases k with
        | zero => exact hk (by simpa [List.getD] using List.isEmpty_iff.mp hemp)
        | succ k =>
          have he : sid0 + (k + 1) = sid0 + 1 + k := by omega
          rw [he] at hbad
          exact ih (sid0 + 1) ⟨k, by simpa [List.getD] using hk, hbad⟩ out' hrec
    · rw [if_neg hemp] at h
      split at h
      · exact absurd h (by simp)
      · rename_i reqs' hp
        split at h
        · exact absurd h (by simp)
        · rename_i out' hrec
          cases k with
          | zero =>
            have hbad0 : ∀ j rj, (cat sid0).get? j = some rj → fromT < rj.ready := by
              simpa using hbad
            have hfind : findHighestResRet (cat sid0) fromT (sub32 now fromT) = none :=
              findHighRec_none_of_unready (cat sid0) 0 hbad0
            rw [planHighestResSingles, hfind] at hp
            exact absurd hp (by simp)
          | succ k =>
            have he : sid0 + (k + 1) = sid0 + 1 + k := by omega
            rw [he] at hbad
            exact ih (sid0 + 1) ⟨k, by simpa [List.getD] using hk, hbad⟩ out' hrec

/-- Phase 1 cannot succeed when some non-empty singles bucket has no ready
retention. -/
theorem planInitial_fail {cat : Catalogue} {now fromT toT mdp : Nat}
    {rp0 : ReqsPlan} {sid : Nat}
    (hne : rp0.single.mdpyes.getD sid [] ≠ [] ∨ rp0.single.mdpno.getD sid [] ≠ [])
    (hbad : ∀ k rk, (cat sid).get? k = some rk → fromT < rk.ready) :
    ∀ rp1, planInitial cat now fromT toT mdp rp0 ≠ .ok rp1 := by
  intro rp1 h
  rw [planInitial] at h
  split at h
  · exact absurd h (by simp)
  · split at h
    · exact absurd h (by simp)
    · rename_i yes' hy
      split at h
      · exact absurd h (by simp)
      · rename_i no' hn
        rcases hne with hne | hne
        · exact planYesSinglesRec_fail rp0.single.mdpyes 0
            ⟨sid, hne, by simpa using hbad⟩ yes' hy
        · exact planNoSinglesRec_fail rp0.single.mdpno 0
            ⟨sid, hne, by simpa using hbad⟩ no' hn

/-- `planRequests` cannot succeed when phase 1 fails. -/
theorem planRequests_fail_of_initial {fuel : Nat} {cat : Catalogue}
    {now fromT toT mdp : Nat} {soft hard : Int} {rp0 : ReqsPlan}
    (hfail : ∀ rp1, planInitial cat now fromT toT mdp rp0 ≠ .ok rp1) :
    ∀ rp, planRequests fuel cat now fromT toT rp0 mdp soft hard ≠ .ok rp := by
  intro rp h
  cases h12 : planPhase12 fuel cat now fromT toT mdp soft rp0 with
  | error e => rw [planRequests_of_phase12_error h12] at h; exact absurd h (by simp)
  | ok rp2 =>
    rw [planPhase12] at h12
    split at h12
    · exact absurd h12 (by simp)
    · rename_i rp1 hinit
      exact hfail rp1 hinit

/-- A catalogue whose only retention only becomes ready at time 1000. -/
def c1badcat : Catalogue := fun _ => [⟨10, 10, 1000⟩]

/-! ### C2: per-half uniform output intervals in PN-groups -/

/-- Membership in the flattening of bucket-wise mapped buckets comes from
membership in the original flattening. -/
theorem mem_flatten_map {g : Req → Req} {L : List (List Req)} {r' : Req} :
    r' ∈ (L.map (fun reqs => reqs.map g)).flatten → ∃ r ∈ L.flatten, r' = g r := by
  intro h
  rcases List.mem_flatten.mp h with ⟨b, hb, hrb⟩
  rcases List.mem_map.mp hb with ⟨b0, hb0, hbe⟩
  rw [← hbe] at hrb
  rcases List.mem_map.mp hrb with ⟨r, hr, hre⟩
  exact ⟨r, List.mem_flatten.mpr ⟨b0, hb0, hr⟩, hre.symm⟩

/-- Every request planned by `planToMultiRec` emits at the common
interval. -/
theorem planToMultiRec_out {cat : Catalogue} {fromT ttl interval : Nat} :
    ∀ (L : List (List Req)) (sid0 : Nat) (out : List (List Req)),
      planToMultiRec cat fromT ttl interval L sid0 = some out →
      ∀ r ∈ out.flatten, r.outInterval = interval := by
  intro L
  induction L with
  | nil =>
    intro sid0 out h r hr
    rw [planToMultiRec] at h
    rw [← Option.some.inj h] at hr
    exact absurd hr (by simp)
  | cons reqs rest ih =>
    intro sid0 out h r hr
    rw [planToMultiRec] at h
    by_cases hemp : reqs.isEmpty
    · rw [if_pos hemp] at h
      split at h
      · exact absurd h (by simp)
      · rename_i out' hrec
        have hcons := Option.some.inj h
        rw [← hcons, List.flatten_cons, List.isEmpty_iff.mp hemp, List.nil_append] at hr
        exact ih (sid0 + 1) out' hrec r hr
    · rw [if_neg hemp] at h
      split at h
      · exact absurd h (by simp)
      · rename_i pr hf
        split at h
        · exact absurd h (by simp)
        · rename_i out' hrec
          obtain ⟨i, ret⟩ := pr
          have hcons := Option.some.inj h
          rw [← hcons, List.flatten_cons] at hr
          rcases List.mem_append.mp hr with hr | hr
          · obtain ⟨r0, _, hre⟩ := List.mem_map.mp hr
            rw [← hre]
            exact planToMulti_req_out r0 i ret interval
          · exact ih (sid0 + 1) out' hrec r hr

/-- `planToMulti` emits every request at the common interval, so its
output halves are uniform. -/
theorem planToMulti_uniform {cat : Catalogue} {now fromT toT interval : Nat}
    {rbr out : ReqsByRet}
    (h : planToMulti cat now fromT toT interval rbr = some out) :
    RbrUniform out := by
  intro r hr r' hr'
  rw [planToMultiRec_out rbr 0 out h r hr, planToMultiRec_out rbr 0 out h r' hr']

/-- Requests planned by `phmRec` have `out_interval = arch_interval`. -/
theorem phmRec_planned {cat : Catalogue} {fromT ttl : Nat} :
    ∀ (L : List (List Req)) (sid0 : Nat) (out : List (List Req)),
      phmRec cat fromT ttl L sid0 = some out →
      ∀ r ∈ out.flatten, r.outInterval = r.archInterval := by
  intro L
  induction L with
  | nil =>
    intro sid0 out h r hr
    rw [phmRec] at h
    rw [← Option.some.inj h] at hr
    exact absurd hr (by simp)
  | cons reqs rest ih =>
    intro sid0 out h r hr
    rw [phmRec] at h
    by_cases hemp : reqs.isEmpty
    · rw [if_pos hemp] at h
      split at h
      · exact absurd h (by simp)
      · rename_i out' hrec
        have hcons := Option.some.inj h
        rw [← hcons, List.flatten_cons, List.isEmpty_iff.mp hemp, List.nil_append] at hr
        exact ih (sid0 + 1) out' hrec r hr
    · rw [if_neg hemp] at h
      split at h
      · exact absurd h (by simp)
      · rename_i pr hf
        split at h
        · exact absurd h (by simp)
        · rename_i out' hrec
          obtain ⟨i, ret⟩ := pr
          have hcons := Option.some.inj h
          rw [← hcons, List.flatten_cons] at hr
          rcases List.mem_append.mp hr with hr | hr
          · obtain ⟨r0, _, hre⟩ := List.mem_map.mp hr
            rw [← hre]
            rfl
          · exact ih (sid0 + 1) out' hrec r hr

/-- Adjusting a freshly planned request (whose output interval equals its
archive interval) emits at the requested interval. -/
theorem Req.adjustTo_out {r : Req} (hro : r.outInterval = r.archInterval)
    (interval : Nat) : (r.adjustTo interval).outInterval = interval := by
  rw [Req.adjustTo]
  split
  · rfl
  · rename_i hne
    push_neg at hne
    rw [hro, ← hne]

/-- `planHighestResMulti` emits every request at the common LCM interval,
so its output halves are uniform. -/
theorem planHighestResMulti_uniform {cat : Catalogue} {now fromT toT : Nat}
    {rbr out : ReqsByRet}
    (h : planHighestResMulti cat now fromT toT rbr = some out) :
    RbrUniform out := by
  rw [planHighestResMulti] at h
  split at h
  · exact absurd h (by simp)
  · rename_i rbr1 hphm
    have hout : rbr1.map (fun reqs => reqs.map
        (fun r => r.adjustTo (lcmList (collectIntervals rbr1)))) = out := by
      simpa using h
    have hall : ∀ r ∈ out.flatten, r.outInterval = lcmList (collectIntervals rbr1) := by
      intro r hr
      rw [← hout] at hr
      obtain ⟨r0, hr0, hre⟩ := mem_flatten_map hr
      rw [hre]
      exact Req.adjustTo_out (phmRec_planned rbr 0 rbr1 hphm r0 hr0) _
    intro r hr r' hr'
    rw [hall r hr, hall r' hr']

/-- `planLowestResForMDPMulti` yields uniform output intervals. -/
theorem planLowestResForMDPMulti_uniform {cat : Catalogue}
    {now fromT toT mdp : Nat} {rbr out : ReqsByRet}
    (h : planLowestResForMDPMulti cat now fromT toT mdp rbr = .ok out) :
    RbrUniform out := by
  rw [planMDPMulti_unfold] at h
  split at h
  · exact absurd h (by simp)
  · split at h
    · exact absurd h (by simp)
    · split at h
      · exact absurd h (by simp)
      · rename_i rbr2 hptm
        have hout : rbr2 = out := by simpa using h
        rw [← hout]
        exact planToMulti_uniform hptm

/-- A successful `reduceResMulti` yields uniform output intervals. -/
theorem reduceResMulti_uniform {cat : Catalogue} {now fromT toT : Nat}
    {rbr out : ReqsByRet}
    (h : reduceResMulti cat now fromT toT rbr = .reduced out) :
    RbrUniform out := by
  rw [reduceResMulti_unfold] at h
  split at h
  · exact absurd h (by simp)
  · split at h
    · exact absurd h (by simp)
    · split at h
      · exact absurd h (by simp)
      · rename_i rbr2 hptm
        have hout : rbr2 = out := by injection h
        rw [← hout]
        exact planToMulti_uniform hptm

/-- Phase 1 establishes per-half uniformity on every PN-group. -/
theorem planGroupsRec_uniform {cat : Catalogue} {now fromT toT mdp : Nat} :
    ∀ (L out : List (Nat × SplitReq)),
      planGroupsRec cat now fromT toT mdp L = .ok out →
      ∀ g s, (g, s) ∈ out → RbrUniform s.mdpyes ∧ RbrUniform s.mdpno := by
  intro L
  induction L with
  | nil =>
    intro out h g s hm
    rw [planGroupsRec] at h
    have hnil : ([] : List (Nat × SplitReq)) = out := by simpa using h
    rw [← hnil] at hm
    exact absurd hm (by simp)
  | cons p rest ih =>
    obtain ⟨gid, sp⟩ := p
    intro out h g s hm
    rw [planGroupsRec.eq_def] at h
    dsimp only at h
    have hyes : ∀ yes', (if ReqsByRet.hasData sp.mdpyes then
        planLowestResForMDPMulti cat now fromT toT mdp sp.mdpyes
        else .ok sp.mdpyes) = .ok yes' → RbrUniform yes' := by
      intro yes' hy
      by_cases hyd : ReqsByRet.hasData sp.mdpyes
      · rw [if_pos hyd] at hy
        exact planLowestResForMDPMulti_uniform hy
      · rw [if_neg hyd] at hy
        have hid : sp.mdpyes = yes' := by simpa using hy
        rw [← hid]
        intro r hr
        rw [hasData_false_flatten (by simpa using hyd)] at hr
        exact absurd hr (by simp)
    have hno : ∀ no', (if ReqsByRet.hasData sp.mdpno then
        planHighestResMulti cat now fromT toT sp.mdpno
        else some sp.mdpno) = some no' → RbrUniform no' := by
      intro no' hn
      by_cases hnd : ReqsByRet.hasData sp.mdpno
      · rw [if_pos hnd] at hn
        exact planHighestResMulti_uniform hn
      · rw [if_neg hnd] at hn
        have hid : sp.mdpno = no' := by simpa using hn
        rw [← hid]
        intro r hr
        rw [hasData_false_flatten (by simpa using hnd)] at hr
        exact absurd hr (by simp)
    split at h
    · exact absurd h (by simp)
    · exact absurd h (by simp)
    · rename_i yes' hy
      split at h
      · exact absurd h (by simp)
      · rename_i no' hn
        split at h
        · exact absurd h (by simp)
        · rename_i rest' hrest
          have hcons : (gid, (⟨yes', no'⟩ : SplitReq)) :: rest' = out := by simpa using h
          rw [← hcons] at hm
          rcases List.mem_cons.mp hm with hm | hm
          · obtain ⟨_, h2⟩ := Prod.mk.inj hm
            rw [h2]
            exact ⟨hyes yes' hy, hno no' hn⟩
          · exact ih rest' hrest g s hm

/-- Phase 1 establishes per-half uniformity on the whole plan. -/
theorem planInitial_uniform {cat : Catalogue} {now fromT toT mdp : Nat}
    {rp0 rp1 : ReqsPlan}
    (h : planInitial cat now fromT toT mdp rp0 = .ok rp1) :
    PlanGroupsUniform rp1 := by
  rw [planInitial] at h
  split at h
  · exact absurd h (by simp)
  · rename_i groups' hg
    split at h
    · exact absurd h (by simp)
    · split at h
      · exact absurd h (by simp)
      · rename_i no' hn
        have hrp := by simpa using h
        rw [← (hrp : (⟨groups', _⟩ : ReqsPlan) = rp1)]
        intro g s hm
        exact planGroupsRec_uniform rp0.pngroups groups' hg g s hm

/-- Replacing a group's `mdpno` half with a reduced one preserves
uniformity. -/
theorem setGroupNo_uniform {cat : Catalogue} {now fromT toT : Nat} {rp : ReqsPlan}
    {gid : Nat} {src rbr2 : ReqsByRet}
    (hinv : PlanGroupsUniform rp)
    (hred : reduceResMulti cat now fromT toT src = .reduced rbr2) :
    PlanGroupsUniform { rp with pngroups := setGroupNo rp.pngroups gid rbr2 } := by
  intro g s hm
  rcases setGroupNo_mem rp.pngroups gid rbr2 g s hm with h1 | ⟨s0, h2, h3⟩
  · exact hinv g s h1
  · refine ⟨?_, ?_⟩
    · rw [h3]
      exact (hinv g s0 h2).1
    · rw [h3]
      exact reduceResMulti_uniform hred

/-- The PN-group portion of a soft pass preserves uniformity. -/
theorem softGroupsPass_uniform {cat : Catalogue} {now fromT toT : Nat} {soft : Int} :
    ∀ (order : List Nat) (rp : ReqsPlan) (progress : Bool)
      (res : Bool × Bool × ReqsPlan),
      PlanGroupsUniform rp →
      softGroupsPass cat now fromT toT soft order rp progress = .ok res →
      PlanGroupsUniform res.2.2 := by
  intro order
  induction order with
  | nil =>
    intro rp progress res hinv h
    rw [softGroupsPass] at h
    have hres : (progress, false, rp) = res := by simpa using h
    rw [← hres]
    exact hinv
  | cons gid rest ih =>
    intro rp progress res hinv h
    rw [softGroupsPass] at h
    split at h
    · exact ih rp progress res hinv h
    · rename_i sp hlk
      by_cases hhd : ReqsByRet.hasData sp.mdpno
      · rw [if_pos hhd] at h
        split at h
        · exact absurd h (by simp)
        · exact ih rp progress res hinv h
        · rename_i rbr2 hred
          have hinv' : PlanGroupsUniform
              { rp with pngroups := setGroupNo rp.pngroups gid rbr2 } :=
            setGroupNo_uniform hinv hred
          by_cases hle : (ReqsPlan.pointsFetch
              { rp with pngroups := setGroupNo rp.pngroups gid rbr2 } : Int) ≤ soft
          · rw [if_pos hle] at h
            have hres : (true, true,
                ({ rp with pngroups := setGroupNo rp.pngroups gid rbr2 } : ReqsPlan)) = res := by
              simpa using h
            rw [← hres]
            exact hinv'
          · rw [if_neg hle] at h
            exact ih _ true res hinv' h
      · rw [if_neg hhd] at h
        exact ih rp progress res hinv h

/-- The singles portion of a soft pass never touches PN-groups. -/
theorem softSinglesPass_uniform {cat : Catalogue} {now fromT toT : Nat} {soft : Int} :
    ∀ (sids : List Nat) (rp : ReqsPlan) (progress : Bool)
      (res : Bool × Bool × ReqsPlan),
      PlanGroupsUniform rp →
      softSinglesPass cat now fromT toT soft sids rp progress = .ok res →
      PlanGroupsUniform res.2.2 := by
  intro sids
  induction sids with
  | nil =>
    intro rp progress res hinv h
    rw [softSinglesPass] at h
    have hres : (progress, false, rp) = res := by simpa using h
    rw [← hres]
    exact hinv
  | cons sid rest ih =>
    intro rp progress res hinv h
    rw [softSinglesPass] at h
    by_cases hemp : (rp.single.mdpno.getD sid []).isEmpty
    · rw [if_pos hemp] at h
      exact ih rp progress res hinv h
    · rw [if_neg hemp] at h
      split at h
      · exact ih rp progress res hinv h
      · rename_i reqs' hred
        have hinv' : PlanGroupsUniform (rp.setSingleNo sid reqs') := by
          intro g s hm
          exact hinv g s hm
        by_cases hle : (ReqsPlan.pointsFetch (rp.setSingleNo sid reqs') : Int) ≤ soft
        · rw [if_pos hle] at h
          have hres : (true, true, rp.setSingleNo sid reqs') = res := by simpa using h
          rw [← hres]
          exact hinv'
        · rw [if_neg hle] at h
          exact ih _ true res hinv' h

/-- One whole soft pass preserves uniformity. -/
theorem softPassOnce_uniform {cat : Catalogue} {now fromT toT : Nat} {soft : Int}
    {order : List Nat} {rp : ReqsPlan} {res : Bool × Bool × ReqsPlan}
    (hinv : PlanGroupsUniform rp)
    (h : softPassOnce cat now fromT toT soft order rp = .ok res) :
    PlanGroupsUniform res.2.2 := by
  rw [softPassOnce] at h
  split at h
  · exact absurd h (by simp)
  · rename_i progress rp' hg
    have hres := by simpa using h
    rw [← (hres : (progress, true, rp') = res)]
    exact softGroupsPass_uniform order rp false (progress, true, rp') hinv hg
  · rename_i progress rp' hg
    have hinv' : PlanGroupsUniform rp' :=
      softGroupsPass_uniform order rp false (progress, false, rp') hinv hg
    exact softSinglesPass_uniform _ rp' progress res hinv' h

/-- The soft-limit loop preserves uniformity. -/
theorem softLoop_uniform {cat : Catalogue} {now fromT toT : Nat} {soft : Int}
    {order : List Nat} :
    ∀ (fuel : Nat) (rp rp2 : ReqsPlan),
      PlanGroupsUniform rp →
      softLoop fuel cat now fromT toT soft order rp = .ok rp2 →
      PlanGroupsUniform rp2 := by
  intro fuel
  induction fuel with
  | zero => intro rp rp2 _ h; exact absurd h (by simp [softLoop])
  | succ fuel ih =>
    intro rp rp2 hinv h
    rw [softLoop] at h
    by_cases hc : soft < (rp.pointsFetch : Int)
    · rw [if_pos hc] at h
      split at h
      · exact absurd h (by simp)
      · rename_i progress early rp' hpass
        by_cases he : early = true
        · rw [if_pos he] at h
          have hres : rp' = rp2 := by simpa using h
          rw [← hres]
          exact softPassOnce_uniform hinv hpass
        · rw [if_neg he] at h
          by_cases hp : progress = true
          · rw [if_pos hp] at h
            exact ih rp' rp2 (softPassOnce_uniform hinv hpass) h
          · rw [if_neg hp] at h
            have hres : rp' = rp2 := by simpa using h
            rw [← hres]
            exact softPassOnce_uniform hinv hpass
    · rw [if_neg hc] at h
      have hres : rp = rp2 := by simpa using h
      rw [← hres]
      exact hinv

/-- C2, amended: within each half (`mdp_yes` and `mdp_no` separately) of a
PN-group, all requests end the planning call with the same `out_interval`;
the two halves of one PN-group are planned independently and generally end
with different intervals, so the claim does not hold across the whole
group. -/
theorem c2_uniform_halves (fuel : Nat) (cat : Catalogue) (now fromT toT : Nat)
    (rp0 : ReqsPlan) (mdp : Nat) (soft hard : Int) (rp : ReqsPlan)
    (h : planRequests fuel cat now fromT toT rp0 mdp soft hard = .ok rp) :
    ∀ g s, (g, s) ∈ rp.pngroups → RbrUniform s.mdpyes ∧ RbrUniform s.mdpno := by
  have h12 : ∃ rp2, planPhase12 fuel cat now fromT toT mdp soft rp0 = .ok rp2 ∧ rp2 = rp := by
    cases h12 : planPhase12 fuel cat now fromT toT mdp soft rp0 with
    | error e => rw [planRequests_of_phase12_error h12] at h; exact absurd h (by simp)
    | ok rp2 =>
      rw [planRequests_of_phase12_ok h12] at h
      by_cases hc : 0 < hard ∧ hard < (rp2.pointsFetch : Int)
      · rw [if_pos hc] at h; exact absurd h (by simp)
      · rw [if_neg hc] at h
        exact ⟨rp2, rfl, by simpa using h⟩
  obtain ⟨rp2, h12, hrp⟩ := h12
  rw [planPhase12] at h12
  split at h12
  · exact absurd h12 (by simp)
  · rename_i rp1 hinit
    have hinv := planInitial_uniform hinit
    by_cases hs : (0 : Int) < soft
    · rw [if_pos hs] at h12
      rw [← hrp]
      exact softLoop_uniform fuel rp1 rp2 hinv h12
    · rw [if_neg hs] at h12
      have hres : rp1 = rp2 := by simpa using h12
      rw [← hrp, ← hres]
      exact hinv

/-- C2 witness: per-half uniformity of the one PN-group of the `c2bundle`
plan. -/
theorem c2_uniform_halves_witness :
    RbrUniform [[⟨0, 600, 10, 1, 60, 60⟩]] ∧ RbrUniform [[⟨0, 600, 10, 0, 10, 10⟩]] := by
  exact c2_uniform_halves 1 c2cat 600 0 600 c2bundle 20 0 0 c2rp (by decide) 1
    ⟨[[⟨0, 600, 10, 1, 60, 60⟩]], [[⟨0, 600, 10, 0, 10, 10⟩]]⟩ (by decide)

/-! ### C9: windows with `from > now` -/

/-- With no valid retention at all, a schema's valid-interval list is
empty. -/
theorem getValidIntervals_none {cat : Catalogue} {sid fromT ttl : Nat}
    (hnoval : ∀ ret ∈ cat sid, ¬ ret.Valid fromT ttl) :
    getValidIntervals cat sid fromT ttl = none := by
  rw [getValidIntervals]
  have hnil : (cat sid).filterMap
      (fun ret => if ret.Valid fromT ttl then some ret.secondsPerPoint else none) = [] := by
    rw [List.filterMap_eq_nil_iff]
    intro ret hret
    rw [if_neg (hnoval ret hret)]
  rw [hnil]
  rfl

/-- A bucket map with data has a non-empty bucket. -/
theorem hasData_true_exists {rbr : ReqsByRet} (h : rbr.hasData = true) :
    ∃ k, rbr.getD k [] ≠ [] := by
  induction rbr with
  | nil => exact absurd h (by simp [ReqsByRet.hasData])
  | cons b rest ih =>
    rw [ReqsByRet.hasData, List.any_cons] at h
    rcases Bool.or_eq_true_iff.mp h with h1 | h2
    · refine ⟨0, ?_⟩
      intro hb
      rw [show (b :: rest : ReqsByRet).getD 0 [] = b from rfl] at hb
      rw [hb] at h1
      exact absurd h1 (by simp)
    · obtain ⟨k, hk⟩ := ih h2
      exact ⟨k + 1, by simpa [List.getD] using hk⟩

/-- With no valid retention anywhere, building the valid-intervals set for
a bucket map with data fails. -/
theorem gvisRec_none {cat : Catalogue} {fromT ttl : Nat}
    (hnoval : ∀ sid ret, ret ∈ cat sid → ¬ ret.Valid fromT ttl) :
    ∀ (L : List (List Req)) (sid0 : Nat) (acc : List (List Nat)),
      (∃ k, L.getD k [] ≠ []) → gvisRec cat fromT ttl L sid0 acc = none := by
  intro L
  induction L with
  | nil => rintro sid0 acc ⟨k, hk⟩; exact absurd (by cases k <;> rfl) hk
  | cons reqs rest ih =>
    rintro sid0 acc ⟨k, hk⟩
    rw [gvisRec]
    by_cases hemp : reqs.isEmpty
    · rw [if_pos hemp]
      cases k with
      | zero => exact absurd (by simpa [List.getD] using List.isEmpty_iff.mp hemp) hk
      | succ k => exact ih (sid0 + 1) acc ⟨k, by simpa [List.getD] using hk⟩
    · rw [if_neg hemp, getValidIntervals_none (fun ret hret => hnoval sid0 ret hret)]

/-- With no valid retention anywhere, the PN-group MDP-yes planner reports
failure. -/
theorem planMDPMulti_notOk {cat : Catalogue} {now fromT toT mdp : Nat}
    {rbr : ReqsByRet}
    (hset : getValidIntervalsSet cat rbr fromT (sub32 now fromT) = none) :
    planLowestResForMDPMulti cat now fromT toT mdp rbr = .error .notOk := by
  rw [planMDPMulti_unfold, hset]

/-- Unfolding the group phase when the head group's MDP-yes planning
fails. -/
theorem planGroupsRec_cons_yes_err {cat : Catalogue} {now fromT toT mdp gid : Nat}
    {sp : SplitReq} {rest : List (Nat × SplitReq)}
    (hyes : (if ReqsByRet.hasData sp.mdpyes then
        planLowestResForMDPMulti cat now fromT toT mdp sp.mdpyes
      else .ok sp.mdpyes) = .error MFail.notOk) :
    planGroupsRec cat now fromT toT mdp ((gid, sp) :: rest) = .error .unSatisfiable := by
  rw [planGroupsRec.eq_def]
  dsimp only
  rw [hyes]

/-- Unfolding the group phase when the head group's MDP-no planning
fails. -/
theorem planGroupsRec_cons_no_err {cat : Catalogue} {now fromT toT mdp gid : Nat}
    {sp : SplitReq} {rest : List (Nat × SplitReq)} {yes' : ReqsByRet}
    (hyes : (if ReqsByRet.hasData sp.mdpyes then
        planLowestResForMDPMulti cat now fromT toT mdp sp.mdpyes
      else .ok sp.mdpyes) = .ok yes')
    (hno : (if ReqsByRet.hasData sp.mdpno then
        planHighestResMulti cat now fromT toT sp.mdpno
      else some sp.mdpno) = none) :
    planGroupsRec cat now fromT toT mdp ((gid, sp) :: rest) = .error .unSatisfiable := by
  rw [planGroupsRec.eq_def]
  dsimp only
  rw [hyes, hno]

/-- Unfolding the group phase when the head group plans fine. -/
theorem planGroupsRec_cons_ok {cat : Catalogue} {now fromT toT mdp gid : Nat}
    {sp : SplitReq} {rest : List (Nat × SplitReq)} {yes' no' : ReqsByRet}
    (hyes : (if ReqsByRet.hasData sp.mdpyes then
        planLowestResForMDPMulti cat now fromT toT mdp sp.mdpyes
      else .ok sp.mdpyes) = .ok yes')
    (hno : (if ReqsByRet.hasData sp.mdpno then
        planHighestResMulti cat now fromT toT sp.mdpno
      else some sp.mdpno) = some no') :
    planGroupsRec cat now fromT toT mdp ((gid, sp) :: rest) =
      match planGroupsRec cat now fromT toT mdp rest with
      | .error e => .error e
      | .ok rest' => .ok ((gid, ⟨yes', no'⟩) :: rest') := by
  rw [planGroupsRec.eq_def]
  dsimp only
  rw [hyes, hno]

/-- With no valid retention anywhere and a PN-group carrying MDP-yes data,
the group phase fails with the unsatisfiable error. -/
theorem planGroupsRec_unsat {cat : Catalogue} {now fromT toT mdp : Nat}
    (hnoval : ∀ sid ret, ret ∈ cat sid → ¬ ret.Valid fromT (sub32 now fromT)) :
    ∀ (L : List (Nat × SplitReq)),
      (∃ g s, (g, s) ∈ L ∧ ReqsByRet.hasData s.mdpyes = true) →
      planGroupsRec cat now fromT toT mdp L = .error .unSatisfiable := by
  intro L
  induction L with
  | nil => rintro ⟨g, s, hm, _⟩; exact absurd hm (by simp)
  | cons p rest ih =>
    obtain ⟨gid, sp⟩ := p
    rintro ⟨g, s, hm, hhd⟩
    by_cases hyd : ReqsByRet.hasData sp.mdpyes
    · have hset : getValidIntervalsSet cat sp.mdpyes fromT (sub32 now fromT) = none :=
        gvisRec_none hnoval sp.mdpyes 0 [] (hasData_true_exists hyd)
      exact planGroupsRec_cons_yes_err (by rw [if_pos hyd, planMDPMulti_notOk hset])
    · rcases List.mem_cons.mp hm with hm | hm
      · obtain ⟨_, h2⟩ := Prod.mk.inj hm
        rw [← h2] at hyd
        exact absurd hhd hyd
      · have hrec := ih ⟨g, s, hm, hhd⟩
        by_cases hnd : ReqsByRet.hasData sp.mdpno
        · cases hno : planHighestResMulti cat now fromT toT sp.mdpno with
          | none =>
            exact planGroupsRec_cons_no_err (by rw [if_neg hyd]) (by rw [if_pos hnd, hno])
          | some no' =>
            rw [planGroupsRec_cons_ok (by rw [if_neg hyd]) (by rw [if_pos hnd, hno]), hrec]
        · rw [planGroupsRec_cons_ok (by rw [if_neg hyd]) (by rw [if_neg hnd]), hrec]

/-- C9, amended: when the (possibly wrapped) `ttl = now - from` exceeds
every retention's `max_retention` — as happens for `from > now`, where the
`uint32` ttl wraps to nearly `2^32` — no retention is valid; a bundle
containing a PN-group MDP-yes half then fails with `UNSATISFIABLE`.  The
original claim fails for the other partition kinds: the singles and
highest-resolution planners only require readiness and fall back to the
coarsest ready retention, so `plan()` can still succeed (see the
counterexample). -/
theorem c9_group_mdpyes_unsat (fuel : Nat) (cat : Catalogue)
    (now fromT toT : Nat) (rp0 : ReqsPlan) (mdp : Nat) (soft hard : Int)
    (hwrap : ∀ sid ret, ret ∈ cat sid → ret.maxRetention < sub32 now fromT)
    (hyes : ∃ g s, (g, s) ∈ rp0.pngroups ∧ ReqsByRet.hasData s.mdpyes = true) :
    planRequests fuel cat now fromT toT rp0 mdp soft hard = .error .unSatisfiable := by
  have hnoval : ∀ sid ret, ret ∈ cat sid → ¬ ret.Valid fromT (sub32 now fromT) := by
    intro sid ret hret hv
    have := hwrap sid ret hret
    have := hv.2
    omega
  have hg := @planGroupsRec_unsat cat now fromT toT mdp hnoval rp0.pngroups hyes
  have hinit : planInitial cat now fromT toT mdp rp0 = .error .unSatisfiable := by
    rw [planInitial, hg]
  have h12 : planPhase12 fuel cat now fromT toT mdp soft rp0 = .error .unSatisfiable := by
    rw [planPhase12, hinit]
  exact planRequests_of_phase12_error h12

/-- A PN-group bundle with MDP-yes data, over a window starting after
`now`. -/
def c9grp : ReqsPlan := ⟨[(1, ⟨[[c9req]], []⟩)], ⟨[], []⟩⟩

/-- C9 witness: the amended statement at the concrete wrapped-ttl input. -/
theorem c9_group_mdpyes_unsat_witness :
    planRequests 1 c1cat 100 200 300 c9grp 100 0 0 = .error .unSatisfiable := by
  refine c9_group_mdpyes_unsat 1 c1cat 100 200 300 c9grp 100 0 0 ?_
    ⟨1, ⟨[[c9req]], []⟩, by simp [c9grp], by decide⟩
  intro sid ret hret
  have hr : ret = ⟨10, 10, 0⟩ := by simpa [c1cat] using hret
  rw [hr]
  decide

/-- A bucket map with a non-empty bucket has data. -/
theorem hasData_of_getD_ne {rbr : ReqsByRet} {k : Nat}
    (h : rbr.getD k [] ≠ []) : ReqsByRet.hasData rbr = true := by
  cases hd : ReqsByRet.hasData rbr
  · exact absurd (hasData_false_getD hd k) h
  · rfl

/-- Building the valid-intervals set fails as soon as some non-empty
bucket's schema has no valid retention (other schemas may be fine). -/
theorem gvisRec_fail {cat : Catalogue} {fromT ttl : Nat} :
    ∀ (L : List (List Req)) (sid0 : Nat) (acc : List (List Nat)),
      (∃ k, L.getD k [] ≠ [] ∧ ∀ ret ∈ cat (sid0 + k), ¬ ret.Valid fromT ttl) →
      gvisRec cat fromT ttl L sid0 acc = none := by
  intro L
  induction L with
  | nil => rintro sid0 acc ⟨k, hk, _⟩; exact absurd (by cases k <;> rfl) hk
  | cons reqs rest ih =>
    rintro sid0 acc ⟨k, hk, hnv⟩
    rw [gvisRec]
    by_cases hemp : reqs.isEmpty
    · rw [if_pos hemp]
      cases k with
      | zero => exact absurd (by simpa [List.getD] using List.isEmpty_iff.mp hemp) hk
      | succ k =>
        refine ih (sid0 + 1) acc ⟨k, by simpa [List.getD] using hk, ?_⟩
        have he : sid0 + 1 + k = sid0 + (k + 1) := by omega
        rw [he]
        exact hnv
    · rw [if_neg hemp]
      cases k with
      | zero => rw [getValidIntervals_none (by simpa using hnv)]
      | succ k =>
        cases hgv : getValidIntervals cat sid0 fromT ttl with
        | none => rfl
        | some vi =>
          show gvisRec cat fromT ttl rest (sid0 + 1)
            (if vi ∈ acc then acc else acc ++ [vi]) = none
          refine ih (sid0 + 1) _ ⟨k, by simpa [List.getD] using hk, ?_⟩
          have he : sid0 + 1 + k = sid0 + (k + 1) := by omega
          rw [he]
          exact hnv

/-- The highest-resolution multi phase cannot succeed past a non-empty
bucket whose schema has no ready retention. -/
theorem phmRec_fail {cat : Catalogue} {fromT ttl : Nat} :
    ∀ (L : List (List Req)) (sid0 : Nat),
      (∃ k, L.getD k [] ≠ [] ∧
        ∀ j rj, (cat (sid0 + k)).get? j = some rj → fromT < rj.ready) →
      ∀ out, phmRec cat fromT ttl L sid0 ≠ some out := by
  intro L
  induction L with
  | nil => rintro sid0 ⟨k, hk, _⟩ out h; exact absurd (by cases k <;> rfl) hk
  | cons reqs rest ih =>
    rintro sid0 ⟨k, hk, hbad⟩ out h
    rw [phmRec] at h
    by_cases hemp : reqs.isEmpty
    · rw [if_pos hemp] at h
      split at h
      · exact absurd h (by simp)
      · rename_i out' hrec
        cases k with
        | zero => exact absurd (by simpa [List.getD] using List.isEmpty_iff.mp hemp) hk
        | succ k =>
          have he : sid0 + (k + 1) = sid0 + 1 + k := by omega
          rw [he] at hbad
          exact ih (sid0 + 1) ⟨k, by simpa [List.getD] using hk, hbad⟩ out' hrec
    · rw [if_neg hemp] at h
      split at h
      · exact absurd h (by simp)
      · rename_i pr hf
        split at h
        · exact absurd h (by simp)
        · rename_i out' hrec
          cases k with
          | zero =>
            have hbad0 : ∀ j rj, (cat sid0).get? j = some rj → fromT < rj.ready := by
              simpa using hbad
            have hfind : findHighestResRet (cat sid0) fromT ttl = none :=
              findHighRec_none_of_unready (cat sid0) 0 hbad0
            rw [hfind] at hf
            exact absurd hf (by simp)
          | succ k =>
            have he : sid0 + (k + 1) = sid0 + 1 + k := by omega
            rw [he] at hbad
            exact ih (sid0 + 1) ⟨k, by simpa [List.getD] using hk, hbad⟩ out' hrec

/-- `planHighestResMulti` cannot succeed when its first phase cannot. -/
theorem planHighestResMulti_fail {cat : Catalogue} {now fromT toT : Nat}
    {rbr : ReqsByRet}
    (hfail : ∀ out1, phmRec cat fromT (sub32 now fromT) rbr 0 ≠ some out1) :
    ∀ out, planHighestResMulti cat now fromT toT rbr ≠ some out := by
  intro out h
  rw [planHighestResMulti] at h
  split at h
  · exact absurd h (by simp)
  · rename_i rbr1 hphm
    exact hfail rbr1 hphm

/-- Unfolding the group phase when the head group's MDP-yes planning
panics. -/
theorem planGroupsRec_cons_yes_panic {cat : Catalogue}
    {now fromT toT mdp gid : Nat} {sp : SplitReq} {rest : List (Nat × SplitReq)}
    (hyes : (if ReqsByRet.hasData sp.mdpyes then
        planLowestResForMDPMulti cat now fromT toT mdp sp.mdpyes
      else .ok sp.mdpyes) = .error MFail.panicked) :
    planGroupsRec cat now fromT toT mdp ((gid, sp) :: rest) = .error .panicked := by
  rw [planGroupsRec.eq_def]
  dsimp only
  rw [hyes]

/-- The group phase cannot succeed when some PN-group holds a non-empty
bucket whose schema has no ready retention: the MDP-yes half fails through
`getValidIntervals` (nothing valid) and the MDP-no half through
`findHighestResRet` (nothing ready). -/
theorem planGroupsRec_fail {cat : Catalogue} {now fromT toT mdp sid : Nat}
    (hbad : ∀ k rk, (cat sid).get? k = some rk → fromT < rk.ready) :
    ∀ (L : List (Nat × SplitReq)),
      (∃ g s, (g, s) ∈ L ∧
        (s.mdpyes.getD sid [] ≠ [] ∨ s.mdpno.getD sid [] ≠ [])) →
      ∀ out, planGroupsRec cat now fromT toT mdp L ≠ .ok out := by
  have hnoval : ∀ ret ∈ cat sid, ¬ ret.Valid fromT (sub32 now fromT) := by
    intro ret hret hv
    obtain ⟨n, hn⟩ := List.mem_iff_get?.mp hret
    have := hbad n ret hn
    have := hv.1
    omega
  intro L
  induction L with
  | nil => rintro ⟨g, s, hm, _⟩ out h; exact absurd hm (by simp)
  | cons p rest ih =>
    obtain ⟨gid, sp⟩ := p
    rintro ⟨g, s, hm, hbuck⟩ out h
    rcases List.mem_cons.mp hm with hmh | hmt
    · obtain ⟨_, h2⟩ := Prod.mk.inj hmh
      rw [h2] at hbuck
      rcases hbuck with hb | hb
      · have hhd : ReqsByRet.hasData sp.mdpyes = true := hasData_of_getD_ne hb
        have hset : getValidIntervalsSet cat sp.mdpyes fromT (sub32 now fromT) = none :=
          gvisRec_fail sp.mdpyes 0 [] ⟨sid, hb, by simpa using hnoval⟩
        rw [planGroupsRec_cons_yes_err
          (by rw [if_pos hhd, planMDPMulti_notOk hset])] at h
        exact absurd h (by simp)
      · cases hyr : (if ReqsByRet.hasData sp.mdpyes then
            planLowestResForMDPMulti cat now fromT toT mdp sp.mdpyes
          else .ok sp.mdpyes) with
        | error e =>
          cases e with
          | notOk =>
            rw [planGroupsRec_cons_yes_err hyr] at h
            exact absurd h (by simp)
          | panicked =>
            rw [planGroupsRec_cons_yes_panic hyr] at h
            exact absurd h (by simp)
        | ok yes' =>
          have hhd : ReqsByRet.hasData sp.mdpno = true := hasData_of_getD_ne hb
          have hpfail : ∀ out1, phmRec cat fromT (sub32 now fromT) sp.mdpno 0 ≠ some out1 :=
            phmRec_fail sp.mdpno 0 ⟨sid, hb, by simpa using hbad⟩
          have hno : (if ReqsByRet.hasData sp.mdpno then
              planHighestResMulti cat now fromT toT sp.mdpno
            else some sp.mdpno) = none := by
            rw [if_pos hhd]
            cases hn : planHighestResMulti cat now fromT toT sp.mdpno with
            | none => rfl
            | some o => exact absurd hn (planHighestResMulti_fail hpfail o)
          rw [planGroupsRec_cons_no_err hyr hno] at h
          exact absurd h (by simp)
    · cases hyr : (if ReqsByRet.hasData sp.mdpyes then
          planLowestResForMDPMulti cat now fromT toT mdp sp.mdpyes
        else .ok sp.mdpyes) with
      | error e =>
        cases e with
        | notOk =>
          rw [planGroupsRec_cons_yes_err hyr] at h
          exact absurd h (by simp)
        | panicked =>
          rw [planGroupsRec_cons_yes_panic hyr] at h
          exact absurd h (by simp)
      | ok yes' =>
        cases hnr : (if ReqsByRet.hasData sp.mdpno then
            planHighestResMulti cat now fromT toT sp.mdpno
          else some sp.mdpno) with
        | none =>
          rw [planGroupsRec_cons_no_err hyr hnr] at h
          exact absurd h (by simp)
        | some no' =>
          rw [planGroupsRec_cons_ok hyr hnr] at h
          split at h
          · exact absurd h (by simp)
          · rename_i rest' hrest
            exact ih ⟨g, s, hmt, hbuck⟩ rest' hrest

/-- Phase 1 cannot succeed when any partition kind — singles half or
PN-group half — holds a non-empty bucket whose schema has no ready
retention. -/
theorem planInitial_fail_any {cat : Catalogue} {now fromT toT mdp : Nat}
    {rp0 : ReqsPlan} {sid : Nat}
    (hne : rp0.single.mdpyes.getD sid [] ≠ [] ∨
      rp0.single.mdpno.getD sid [] ≠ [] ∨
      ∃ g s, (g, s) ∈ rp0.pngroups ∧
        (s.mdpyes.getD sid [] ≠ [] ∨ s.mdpno.getD sid [] ≠ []))
    (hbad : ∀ k rk, (cat sid).get? k = some rk → fromT < rk.ready) :
    ∀ rp1, planInitial cat now fromT toT mdp rp0 ≠ .ok rp1 := by
  intro rp1 h
  rw [planInitial] at h
  split at h
  · exact absurd h (by simp)
  · rename_i groups' hg
    split at h
    · exact absurd h (by simp)
    · rename_i yes' hy
      split at h
      · exact absurd h (by simp)
      · rename_i no' hn
        rcases hne with hne | hne | hne
        · exact planYesSinglesRec_fail rp0.single.mdpyes 0
            ⟨sid, hne, by simpa using hbad⟩ yes' hy
        · exact planNoSinglesRec_fail rp0.single.mdpno 0
            ⟨sid, hne, by simpa using hbad⟩ no' hn
        · exact planGroupsRec_fail hbad rp0.pngroups hne groups' hg


/-- C1, amended: on success, every planned request's chosen archive exists
in its schema's retention list and is ready (`ready_timestamp ≤ from`);
full `valid(from, ttl)` is not guaranteed, because the highest-resolution
planners fall back to the coarsest ready retention when none meets the TTL
and the MDP-yes singles planner checks readiness only.  Conversely, when
any non-empty bucket — in the singles halves or in either half of a
PN-group — has a schema with no ready retention at all, `plan()` cannot
return a plan. -/
theorem c1_ready_invariant :
    (∀ (fuel : Nat) (cat : Catalogue) (now fromT toT : Nat) (rp0 : ReqsPlan)
        (mdp : Nat) (soft hard : Int) (rp : ReqsPlan),
      planRequests fuel cat now fromT toT rp0 mdp soft hard = .ok rp →
      PlanReady cat fromT rp) ∧
    (∀ (fuel : Nat) (cat : Catalogue) (now fromT toT : Nat) (rp0 : ReqsPlan)
        (mdp : Nat) (soft hard : Int) (sid : Nat),
      (rp0.single.mdpyes.getD sid [] ≠ [] ∨
        rp0.single.mdpno.getD sid [] ≠ [] ∨
        ∃ g s, (g, s) ∈ rp0.pngroups ∧
          (s.mdpyes.getD sid [] ≠ [] ∨ s.mdpno.getD sid [] ≠ [])) →
      (∀ k rk, (cat sid).get? k = some rk → fromT < rk.ready) →
      ∀ rp, planRequests fuel cat now fromT toT rp0 mdp soft hard ≠ .ok rp) := by
  constructor
  · intro fuel cat now fromT toT rp0 mdp soft hard rp h
    cases h12 : planPhase12 fuel cat now fromT toT mdp soft rp0 with
    | error e => rw [planRequests_of_phase12_error h12] at h; exact absurd h (by simp)
    | ok rp2 =>
      rw [planRequests_of_phase12_ok h12] at h
      by_cases hc : 0 < hard ∧ hard < (rp2.pointsFetch : Int)
      · rw [if_pos hc] at h; exact absurd h (by simp)
      · rw [if_neg hc] at h
        have heq : rp2 = rp := by simpa using h
        rw [← heq]
        exact planPhase12_ready h12
  · intro fuel cat now fromT toT rp0 mdp soft hard sid hne hbad
    exact planRequests_fail_of_initial (planInitial_fail_any hne hbad)

/-- C1 witness: the readiness invariant on the `c1bundle` plan, and the
guaranteed failure on the not-yet-ready catalogue, both for a singles
bundle and for a PN-group bundle. -/
theorem c1_ready_invariant_witness :
    PlanReady c1cat 0 c1rp ∧
    planRequests 1 c1badcat 300 0 300 c1bundle 100 0 0 ≠ .ok c1rp ∧
    planRequests 1 c1badcat 300 200 300 c9grp 100 0 0 ≠ .ok c1rp := by
  have hbad : ∀ fromT : Nat, fromT < 1000 →
      ∀ k rk, (c1badcat 0).get? k = some rk → fromT < rk.ready := by
    intro fromT hf k rk hk
    cases k with
    | zero =>
      have hrk : rk = ⟨10, 10, 1000⟩ := by simpa [c1badcat, List.get?] using hk.symm
      rw [hrk]
      exact hf
    | succ k => exact absurd hk (by simp [c1badcat, List.get?])
  refine ⟨?_, ?_, ?_⟩
  · exact c1_ready_invariant.1 1 c1cat 300 0 300 c1bundle 100 0 0 c1rp (by decide)
  · exact c1_ready_invariant.2 1 c1badcat 300 0 300 c1bundle 100 0 0 0
      (Or.inr (Or.inl (by decide))) (hbad 0 (by decide)) c1rp
  · exact c1_ready_invariant.2 1 c1badcat 300 200 300 c9grp 100 0 0 0
      (Or.inr (Or.inr ⟨1, ⟨[[c9req]], []⟩, by decide, Or.inl (by decide)⟩))
      (hbad 200 (by decide)) c1rp

end QueryEngine
